import Mathlib

/-!
# Verification of the BjornCocaine streaming log console (`src/web/js/global.js`)

This file gives a shallow embedding of the `BjornUI.ConsoleSSE` module of
`src/web/js/global.js` and proves/refutes the frozen claims about it.

The embedding has two parts:

* a state machine for the console (scroll/buffer/render state, the SSE
  connection lifecycle with its reconnect counter and timers, and the
  public controls `start`/`stop`/`toggle`/`forceBottom`), driven by an
  explicit event type, and
* an executable model of the pure line-decoration pipeline
  (`processLogLine` with its three passes: `*.py` wrapping, level badges,
  and `highlightNumbersOutsideTags`), together with the font-size
  controls `setFont`/`adjustFont`.

Timers are modelled as pending-callback counters plus explicit fire
events; DOM geometry (`isAtBottom`) is an event parameter, since it is an
input read from the viewport.  The rendered log `innerHTML` is modelled as
the list of (trimmed) raw lines whose decorated forms have been appended;
because every append writes `processLogLine(clean) + '<br>'`, the string
`innerHTML` always equals the concatenation of the decorated lines each
followed by `'<br>'`, so `innerHTML.split('<br>')` has exactly one
trailing empty chunk after the decorated lines.  The line-cap arithmetic
below accounts for that trailing chunk explicitly.
-/

namespace Bjorn

/-- JavaScript `String.prototype.trim` whitespace (the ASCII part used by
log lines): space, tab, LF, VT, FF, CR. -/
def isJsWs (c : Char) : Bool :=
  c = ' ' || c = '\t' || c = '\n' || c = '\x0b' || c = '\x0c' || c = '\r'

/-- JS `(raw||'').trim()` from `appendLogs`, at the character-list level:
drop whitespace at the front, then (via a reversal) at the back. -/
def jsTrimList (l : List Char) : List Char :=
  ((l.dropWhile isJsWs).reverse.dropWhile isJsWs).reverse

/-- JS `(raw||'').trim()` from `appendLogs`. -/
def jsTrim (s : String) : String :=
  ⟨jsTrimList s.data⟩

theorem head?_dropWhile_false {p : Char → Bool} :
    ∀ {l : List Char} {c : Char}, (l.dropWhile p).head? = some c → p c = false
  | [], _, h => by simp at h
  | a :: t, c, h => by
    by_cases hp : p a
    · exact head?_dropWhile_false (l := t) (by simpa [List.dropWhile_cons, hp] using h)
    · rw [List.dropWhile_cons, if_neg hp, List.head?_cons, Option.some.injEq] at h
      subst h
      simpa using hp

theorem dropWhile_dropWhile (p : Char → Bool) (l : List Char) :
    (l.dropWhile p).dropWhile p = l.dropWhile p := by
  cases h : l.dropWhile p with
  | nil => simp
  | cons a t =>
    have ha : p a = false := head?_dropWhile_false (l := l) (by simp [h])
    simp [List.dropWhile_cons, ha]

theorem getLast?_dropWhile {p : Char → Bool} :
    ∀ (l : List Char) (c : Char), l.getLast? = some c → p c = false →
      (l.dropWhile p).getLast? = some c
  | [], _, h, _ => by simp at h
  | [a], c, h, hc => by
    simp only [List.getLast?_singleton, Option.some.injEq] at h
    subst h
    simp [List.dropWhile_cons, hc]
  | a :: b :: t, c, h, hc => by
    rw [List.getLast?_cons_cons] at h
    by_cases hp : p a
    · rw [List.dropWhile_cons, if_pos hp]
      exact getLast?_dropWhile (b :: t) c h hc
    · rw [List.dropWhile_cons, if_neg hp, List.getLast?_cons_cons]
      exact h

theorem jsTrimList_idem (l : List Char) : jsTrimList (jsTrimList l) = jsTrimList l := by
  unfold jsTrimList
  set A := l.dropWhile isJsWs with hA
  set B := A.reverse.dropWhile isJsWs with hB
  have h1 : B.reverse.dropWhile isJsWs = B.reverse := by
    cases hAe : A with
    | nil =>
      rw [hB, hAe]
      simp
    | cons a ta =>
      have hpa : isJsWs a = false :=
        head?_dropWhile_false (l := l) (by rw [← hA, hAe]; simp)
      have hAl : A.reverse.getLast? = some a := by
        rw [List.getLast?_reverse, hAe]
        simp
      have hBl : B.getLast? = some a := getLast?_dropWhile _ _ hAl hpa
      have hrh : B.reverse.head? = some a := by
        rw [List.head?_reverse]
        exact hBl
      cases hre : B.reverse with
      | nil => simp
      | cons x tx =>
        rw [hre, List.head?_cons, Option.some.injEq] at hrh
        subst hrh
        rw [List.dropWhile_cons, if_neg (by simp [hpa])]
  rw [h1, List.reverse_reverse, dropWhile_dropWhile]

theorem jsTrim_idem (s : String) : jsTrim (jsTrim s) = jsTrim s :=
  congrArg String.mk (jsTrimList_idem s.data)

/-- Connection handle: `none` = no `EventSource`; `some false` = created
(connecting); `some true` = opened. -/
abbrev Conn := Option Bool

/-- The mutable `state` object of `BjornUI.ConsoleSSE` (the fields the
console logic reads or writes; `el.*` handles are reduced to the Boolean
`hasConsole` for `el.logConsole` presence, `toggleOn` for the toggle
image source, and `indicatorShown` for the buffer indicator display). -/
structure ConsoleState where
  hasConsole : Bool
  /-- the trimmed raw lines whose decorated forms make up `innerHTML` -/
  rendered : List String
  logBuffer : List String
  isUserScrolling : Bool
  autoScroll : Bool
  /-- a scroll-debounce `setTimeout` callback is pending (`state.scrollTimeout`;
  `clearTimeout` before each re-schedule means at most one is live) -/
  scrollTimerPending : Bool
  indicatorShown : Bool
  maxLines : Nat
  maxBufferSize : Nat
  conn : Conn
  isConsoleOn : Bool
  reconnectAttempts : Nat
  maxReconnect : Nat
  /-- number of pending `setTimeout(() => { start(); reconnectAttempts++ },
  reconnectDelay)` callbacks; the source never stores or clears this handle -/
  pendingReconnects : Nat
  toggleOn : Bool
  deriving Repr, DecidableEq

/-- Initial state after `init()` found the console container, with the
buffer capacity and visible-line cap as parameters (source defaults
`maxBufferSize = 1000`, `maxLines = 200`). -/
def mkInit (cap maxL : Nat) : ConsoleState :=
  { hasConsole := true
    rendered := []
    logBuffer := []
    isUserScrolling := false
    autoScroll := true
    scrollTimerPending := false
    indicatorShown := false
    maxLines := maxL
    maxBufferSize := cap
    conn := none
    isConsoleOn := false
    reconnectAttempts := 0
    maxReconnect := 5
    pendingReconnects := 0
    toggleOn := false }

/-- The default initial state (`maxBufferSize = 1000`, `maxLines = 200`). -/
def init0 : ConsoleState := mkInit 1000 200

/-- Source `updateBufferIndicator()`: show the indicator iff the buffer is
non-empty. -/
def updateBufferIndicator (s : ConsoleState) : ConsoleState :=
  { s with indicatorShown := decide (s.logBuffer.length > 0) }

/-- The `lines.slice(-maxLines)` trim in `appendLogs`.  `r` is the list of
rendered lines; `innerHTML.split('<br>')` is `r` plus one trailing empty
chunk, so the JS `lines.length` is `r.length + 1` and `slice(-maxLines)`
keeps the last `maxLines` chunks, i.e. the last `maxLines - 1` real lines
(JS `slice(-0)` is `slice(0)`, the whole array). -/
def capLines (maxL : Nat) (r : List String) : List String :=
  if maxL = 0 then r else r.drop (r.length + 1 - maxL)

/-- Source `appendLogs(raw)`. -/
def appendLogs (s : ConsoleState) (raw : String) : ConsoleState :=
  let clean := jsTrim raw
  if clean = "" || !s.hasConsole then s
  else if s.isUserScrolling || !s.autoScroll then
    let b := s.logBuffer ++ [clean]
    let b := if b.length > s.maxBufferSize then b.tail else b
    updateBufferIndicator { s with logBuffer := b }
  else
    let r := s.rendered ++ [clean]
    let r := if r.length + 1 > s.maxLines then capLines s.maxLines r else r
    { s with rendered := r }

/-- Source `flushBuffer()`: drain the whole buffer, appending each (re-trimmed,
non-empty) line to the rendered log, then update the indicator.  No line
cap is applied here. -/
def flushBuffer (s : ConsoleState) : ConsoleState :=
  if s.logBuffer.isEmpty || !s.hasConsole then s
  else
    let drained := s.logBuffer.filterMap fun l =>
      let t := jsTrim l
      if t = "" then none else some t
    updateBufferIndicator { s with rendered := s.rendered ++ drained, logBuffer := [] }

/-- Source `forceBottom()`: synchronously re-pin (no flush; the actual scrolling
is geometry only). -/
def forceBottom (s : ConsoleState) : ConsoleState :=
  if !s.hasConsole then s
  else { s with isUserScrolling := false, autoScroll := true }

/-- Source `reconnect()`: schedule a retry timer, or give up. -/
def reconnect (s : ConsoleState) : ConsoleState :=
  if s.reconnectAttempts < s.maxReconnect then
    { s with pendingReconnects := s.pendingReconnects + 1 }
  else
    { s with isConsoleOn := false, toggleOn := false }

/-- Source `stopSSE()`: close and discard the `EventSource`. -/
def stopSSE (s : ConsoleState) : ConsoleState := { s with conn := none }

/-- Source `start()`: `stopSSE()` then create a fresh connection; the reconnect
timer is *not* touched. -/
def startFn (s : ConsoleState) : ConsoleState :=
  { s with conn := some false, isConsoleOn := true }

/-- Source `stop()`: close the channel, reset the attempt counter, clear the
buffer, update the indicator.  Neither `isConsoleOn` nor any pending
reconnect timer is touched. -/
def stopFn (s : ConsoleState) : ConsoleState :=
  updateBufferIndicator
    { s with conn := none, reconnectAttempts := 0, logBuffer := [] }

/-- Source `toggle()`. -/
def toggleFn (s : ConsoleState) : ConsoleState :=
  if !s.isConsoleOn then
    { startFn { s with isConsoleOn := true } with toggleOn := true }
  else
    { stopFn { s with isConsoleOn := false } with toggleOn := false }

/-- Handler `eventSource.onopen`. -/
def onOpen (s : ConsoleState) : ConsoleState :=
  if s.conn.isSome then { s with conn := some true, reconnectAttempts := 0 } else s

/-- Handler `eventSource.onmessage`. -/
def onMessage (s : ConsoleState) (d : String) : ConsoleState :=
  if s.conn.isSome then appendLogs s d else s

/-- Handler `eventSource.onerror` with `readyState === CLOSED` given by the
`closed` flag. -/
def onError (s : ConsoleState) (closed : Bool) : ConsoleState :=
  if s.conn.isSome && closed then
    let s' := stopSSE s
    if s'.isConsoleOn then reconnect s' else s'
  else s

/-- A pending reconnect timer fires: `start(); reconnectAttempts++`. -/
def onReconnectTimer (s : ConsoleState) : ConsoleState :=
  if s.pendingReconnects > 0 then
    let s' := startFn { s with pendingReconnects := s.pendingReconnects - 1 }
    { s' with reconnectAttempts := s'.reconnectAttempts + 1 }
  else s

/-- The `scroll` listener of `attachScrollUX` (`atBottom` is the
`isAtBottom(lc)` geometry read). -/
def onScroll (s : ConsoleState) (atBottom : Bool) : ConsoleState :=
  if !s.hasConsole then s
  else
    let was := s.isUserScrolling
    let s1 := { s with isUserScrolling := true, scrollTimerPending := false }
    let s2 :=
      if atBottom then
        let s' := { s1 with autoScroll := true, isUserScrolling := false }
        if was then flushBuffer s' else s'
      else { s1 with autoScroll := false }
    { s2 with scrollTimerPending := true }

/-- The `wheel` listener. -/
def onWheel (s : ConsoleState) : ConsoleState :=
  if !s.hasConsole then s
  else { s with isUserScrolling := true, autoScroll := false, scrollTimerPending := true }

/-- The debounce timer of either listener fires, re-reading geometry. -/
def onScrollTimer (s : ConsoleState) (atBottom : Bool) : ConsoleState :=
  if s.scrollTimerPending then
    let s1 := { s with scrollTimerPending := false }
    if atBottom then flushBuffer { s1 with isUserScrolling := false, autoScroll := true }
    else s1
  else s

/-- The scroll-to-bottom button click handler of `addFloatingUI`. -/
def onButton (s : ConsoleState) : ConsoleState :=
  if !s.hasConsole then s
  else flushBuffer { s with autoScroll := true, isUserScrolling := false }

/-- Events driving the console: server pushes, connection callbacks,
timer firings, user scroll interaction, and the public controls. -/
inductive Ev where
  | msg (d : String)
  | opened
  | error (closed : Bool)
  | rtimer
  | stimer (atBottom : Bool)
  | scroll (atBottom : Bool)
  | wheel
  | button
  | fb
  | start
  | stop
  | toggle
  deriving Repr, DecidableEq

/-- One event step. -/
def step (s : ConsoleState) : Ev → ConsoleState
  | .msg d => onMessage s d
  | .opened => onOpen s
  | .error c => onError s c
  | .rtimer => onReconnectTimer s
  | .stimer b => onScrollTimer s b
  | .scroll b => onScroll s b
  | .wheel => onWheel s
  | .button => onButton s
  | .fb => forceBottom s
  | .start => startFn s
  | .stop => stopFn s
  | .toggle => toggleFn s

/-- Run a trace of events. -/
def run (s : ConsoleState) (es : List Ev) : ConsoleState :=
  es.foldl step s

/-- The trimmed, non-empty payloads of the pushed lines of a trace, in
arrival order (empty-after-trim payloads are discarded on arrival by
`appendLogs`, before any routing). -/
def pushesOf (es : List Ev) : List String :=
  es.filterMap fun e =>
    match e with
    | .msg d => if jsTrim d = "" then none else some (jsTrim d)
    | _ => none

/-- Events that can occur without the user invoking `start()`/`toggle()`:
connection callbacks, timer firings, scroll interaction, `stop()`. -/
def autoEv : Ev → Bool
  | .start => false
  | .toggle => false
  | _ => true

/-! ### Field-preservation lemmas -/

@[simp] theorem updateBufferIndicator_fields (s : ConsoleState) :
    (updateBufferIndicator s).rendered = s.rendered ∧
    (updateBufferIndicator s).logBuffer = s.logBuffer ∧
    (updateBufferIndicator s).conn = s.conn ∧
    (updateBufferIndicator s).pendingReconnects = s.pendingReconnects := by
  simp [updateBufferIndicator]

theorem flushBuffer_conn (s : ConsoleState) : (flushBuffer s).conn = s.conn := by
  unfold flushBuffer
  split <;> simp [updateBufferIndicator]

theorem flushBuffer_pending (s : ConsoleState) :
    (flushBuffer s).pendingReconnects = s.pendingReconnects := by
  unfold flushBuffer
  split <;> simp [updateBufferIndicator]

theorem appendLogs_conn (s : ConsoleState) (d : String) :
    (appendLogs s d).conn = s.conn := by
  unfold appendLogs
  dsimp only [updateBufferIndicator]
  split <;> first | rfl | (split <;> rfl)

theorem appendLogs_pending (s : ConsoleState) (d : String) :
    (appendLogs s d).pendingReconnects = s.pendingReconnects := by
  unfold appendLogs
  dsimp only [updateBufferIndicator]
  split <;> first | rfl | (split <;> rfl)

/-- Every event other than `start`/`toggle` preserves "no connection and
no pending reconnect timer": once the client has given up (or was never
started), nothing happens automatically. -/
theorem step_preserves_dead (s : ConsoleState) (e : Ev)
    (he : autoEv e = true) (hc : s.conn = none) (hp : s.pendingReconnects = 0) :
    (step s e).conn = none ∧ (step s e).pendingReconnects = 0 := by
  cases e with
  | msg d => simp [step, onMessage, hc, hp]
  | opened => simp [step, onOpen, hc, hp]
  | error c => simp [step, onError, hc, hp]
  | rtimer => simp [step, onReconnectTimer, hc, hp]
  | stimer b =>
    simp only [step, onScrollTimer]
    split
    · split <;> simp [flushBuffer_conn, flushBuffer_pending, hc, hp]
    · exact ⟨hc, hp⟩
  | scroll b =>
    simp only [step, onScroll]
    split
    · exact ⟨hc, hp⟩
    · split
      · split <;> simp [flushBuffer_conn, flushBuffer_pending, hc, hp]
      · exact ⟨hc, hp⟩
  | wheel =>
    simp only [step, onWheel]
    split <;> simp [hc, hp]
  | button =>
    simp only [step, onButton]
    split
    · exact ⟨hc, hp⟩
    · simp [flushBuffer_conn, flushBuffer_pending, hc, hp]
  | fb =>
    simp only [step, forceBottom]
    split <;> simp [hc, hp]
  | start => simp [autoEv] at he
  | stop => simp [step, stopFn, updateBufferIndicator, hc, hp]
  | toggle => simp [autoEv] at he

theorem run_preserves_dead : ∀ (es : List Ev) (s : ConsoleState),
    (∀ e ∈ es, autoEv e = true) → s.conn = none → s.pendingReconnects = 0 →
    (run s es).conn = none ∧ (run s es).pendingReconnects = 0
  | [], s, _, hc, hp => ⟨hc, hp⟩
  | e :: es, s, h, hc, hp => by
    have h1 := step_preserves_dead s e (h e (by simp)) hc hp
    exact run_preserves_dead es (step s e) (fun e' he' => h e' (by simp [he'])) h1.1 h1.2

/-! ### C2: reconnect budget -/

/-- The trace: user `start()`, then the connection fails five times, each
failure followed by the scheduled retry firing. -/
def fiveFailTrace : List Ev :=
  [.start, .error true, .rtimer, .error true, .rtimer, .error true, .rtimer,
   .error true, .rtimer, .error true]

/-- One more failure: the retry after the fifth failure also fails. -/
def sixFailTrace : List Ev := fiveFailTrace ++ [.rtimer, .error true]

/-- C2, counterexample: after exactly 5 consecutive failed connection
attempts (the initial one plus four retries) the client has *not* given
up: the console flag is still on and a fifth retry is already scheduled,
and when that timer fires a sixth connection attempt is opened with no
`start()`/`toggle()` call. -/
theorem claim_C2_counterexample :
    (run init0 fiveFailTrace).isConsoleOn = true ∧
    (run init0 fiveFailTrace).pendingReconnects = 1 ∧
    (run init0 fiveFailTrace).reconnectAttempts = 4 ∧
    (step (run init0 fiveFailTrace) .rtimer).conn = some false := by decide

/-- C2 as amended: after exactly 6 consecutive failed (re)connection
attempts with no successful open in between — the initial attempt plus
the 5 scheduled retries — the client reaches the given-up state (console
flag off, toggle image off, no connection, no pending retry), and no
sequence of further events that excludes `start()`/`toggle()` ever opens
a connection or schedules a reconnect again. -/
theorem claim_C2_amended :
    ((run init0 sixFailTrace).isConsoleOn = false ∧
     (run init0 sixFailTrace).toggleOn = false ∧
     (run init0 sixFailTrace).conn = none ∧
     (run init0 sixFailTrace).pendingReconnects = 0) ∧
    ∀ es : List Ev, (∀ e ∈ es, autoEv e = true) →
      (run (run init0 sixFailTrace) es).conn = none ∧
      (run (run init0 sixFailTrace) es).pendingReconnects = 0 := by
  refine ⟨by decide, fun es h => run_preserves_dead es _ h (by decide) (by decide)⟩

theorem claim_C2_amended_witness :
    (run (run init0 sixFailTrace) [.error true, .rtimer, .stimer true]).conn = none :=
  (claim_C2_amended.2 [.error true, .rtimer, .stimer true] (by decide)).1

/-! ### C3: `stop()` does not cancel the pending reconnect timer -/

/-- C3: the code violates the claim.  After a connection failure a
reconnect timer is pending; `stop()` closes the channel, resets the
attempt counter and clears the buffer and indicator (as claimed), but the
source never stores, let alone clears, the reconnect `setTimeout` handle.
So the timer stays pending across `stop()`, and when it fires it calls
`start()`, opening a fresh connection although the user never called
`start()`/`toggle()` again. -/
theorem claim_C3_bug :
    ((stopFn (run init0 [.start, .error true])).conn = none ∧
     (stopFn (run init0 [.start, .error true])).reconnectAttempts = 0 ∧
     (stopFn (run init0 [.start, .error true])).logBuffer = [] ∧
     (stopFn (run init0 [.start, .error true])).indicatorShown = false) ∧
    (stopFn (run init0 [.start, .error true])).pendingReconnects = 1 ∧
    (step (stopFn (run init0 [.start, .error true])) .rtimer).conn = some false := by
  decide

/-! ### C10: `forceBottom` re-pins synchronously without flushing -/

/-- C10: `forceBottom()` re-pins synchronously (user-scrolling flag off,
auto-scroll on) but performs no flush: the buffered lines stay buffered
(and the indicator stays), while any line arriving afterwards is rendered
immediately, the buffer still untouched. -/
theorem claim_C10 (s : ConsoleState) (hc : s.hasConsole = true)
    (_hb : s.logBuffer ≠ []) :
    (forceBottom s).isUserScrolling = false ∧
    (forceBottom s).autoScroll = true ∧
    (forceBottom s).logBuffer = s.logBuffer ∧
    (forceBottom s).rendered = s.rendered ∧
    (forceBottom s).indicatorShown = s.indicatorShown ∧
    ∀ l, jsTrim l ≠ "" →
      (appendLogs (forceBottom s) l).logBuffer = s.logBuffer ∧
      ∃ k, (appendLogs (forceBottom s) l).rendered = (s.rendered ++ [jsTrim l]).drop k := by
  have hfb : forceBottom s = { s with isUserScrolling := false, autoScroll := true } := by
    unfold forceBottom
    rw [if_neg (by simp [hc])]
  refine ⟨by simp [hfb], by simp [hfb], by simp [hfb], by simp [hfb], by simp [hfb], ?_⟩
  intro l hl
  rw [hfb]
  unfold appendLogs
  dsimp only
  rw [if_neg (by simp [hl, hc]), if_neg (by simp)]
  refine ⟨by dsimp only [updateBufferIndicator], ?_⟩
  dsimp only
  split
  · unfold capLines
    split
    · exact ⟨0, by simp⟩
    · exact ⟨_, rfl⟩
  · exact ⟨0, by simp⟩

theorem claim_C10_witness :
    (forceBottom (run init0 [.start, .wheel, .msg "a"])).logBuffer = ["a"] := by
  have h := claim_C10 (run init0 [.start, .wheel, .msg "a"]) (by decide) (by decide)
  rw [h.2.2.1]
  decide

/-! ### C4: buffer capacity and drop-oldest eviction -/

theorem appendLogs_buffer_le (s : ConsoleState) (d : String)
    (h : s.logBuffer.length ≤ s.maxBufferSize) :
    (appendLogs s d).logBuffer.length ≤ (appendLogs s d).maxBufferSize ∧
    (appendLogs s d).maxBufferSize = s.maxBufferSize := by
  unfold appendLogs
  dsimp only [updateBufferIndicator]
  split
  · exact ⟨h, rfl⟩
  · split
    · refine ⟨?_, rfl⟩
      dsimp only
      split
      · simp only [List.length_tail, List.length_append, List.length_singleton]
        omega
      · rename_i hle
        simp only [gt_iff_lt, not_lt, List.length_append, List.length_singleton] at hle ⊢
        omega
    · exact ⟨h, rfl⟩

theorem flushBuffer_buffer_le (s : ConsoleState)
    (h : s.logBuffer.length ≤ s.maxBufferSize) :
    (flushBuffer s).logBuffer.length ≤ (flushBuffer s).maxBufferSize ∧
    (flushBuffer s).maxBufferSize = s.maxBufferSize := by
  unfold flushBuffer
  split
  · exact ⟨h, rfl⟩
  · exact ⟨Nat.zero_le _, rfl⟩

theorem buffer_cap_step (s : ConsoleState) (e : Ev)
    (h : s.logBuffer.length ≤ s.maxBufferSize) :
    (step s e).logBuffer.length ≤ (step s e).maxBufferSize ∧
    (step s e).maxBufferSize = s.maxBufferSize := by
  cases e with
  | msg d =>
    simp only [step, onMessage]
    split
    · exact appendLogs_buffer_le s d h
    · exact ⟨h, rfl⟩
  | opened =>
    simp only [step, onOpen]
    split <;> exact ⟨h, rfl⟩
  | error c =>
    simp only [step, onError, stopSSE, reconnect]
    split
    · split
      · split <;> exact ⟨h, rfl⟩
      · exact ⟨h, rfl⟩
    · exact ⟨h, rfl⟩
  | rtimer =>
    simp only [step, onReconnectTimer, startFn]
    split <;> exact ⟨h, rfl⟩
  | stimer b =>
    simp only [step, onScrollTimer]
    split
    · split
      · exact flushBuffer_buffer_le _ h
      · exact ⟨h, rfl⟩
    · exact ⟨h, rfl⟩
  | scroll b =>
    simp only [step, onScroll]
    split
    · exact ⟨h, rfl⟩
    · split
      · split
        · exact flushBuffer_buffer_le _ h
        · exact ⟨h, rfl⟩
      · exact ⟨h, rfl⟩
  | wheel =>
    simp only [step, onWheel]
    split <;> exact ⟨h, rfl⟩
  | button =>
    simp only [step, onButton]
    split
    · exact ⟨h, rfl⟩
    · exact flushBuffer_buffer_le _ h
  | fb =>
    simp only [step, forceBottom]
    split <;> exact ⟨h, rfl⟩
  | start =>
    exact ⟨h, rfl⟩
  | stop =>
    exact ⟨Nat.zero_le _, rfl⟩
  | toggle =>
    simp only [step, toggleFn, startFn, stopFn, updateBufferIndicator]
    split
    · exact ⟨h, rfl⟩
    · exact ⟨Nat.zero_le _, rfl⟩

theorem run_buffer_cap : ∀ (es : List Ev) (s : ConsoleState),
    s.logBuffer.length ≤ s.maxBufferSize →
    (run s es).logBuffer.length ≤ (run s es).maxBufferSize ∧
    (run s es).maxBufferSize = s.maxBufferSize
  | [], _, h => ⟨h, rfl⟩
  | e :: es, s, h => by
    have h1 := buffer_cap_step s e h
    have h2 := run_buffer_cap es (step s e) h1.1
    exact ⟨h2.1, h2.2.trans h1.2⟩

/-- Scenario B of the spec: `UserScrolled` (a wheel interaction), then
three pushed lines. -/
def scenarioB : List Ev := [.start, .wheel, .msg "a", .msg "b", .msg "c"]

/-- C4: (1) on every trace from an initial state with buffer capacity
`cap`, the buffer never exceeds `cap`; (2) pushing onto a full buffer
while user-scrolled evicts exactly the oldest buffered line; (3) the
concrete scenario: capacity 2, user-scrolled, push `a,b,c` → buffer is
exactly `["b","c"]` with the indicator shown, and the flush renders
`b` then `c`, empties the buffer and hides the indicator. -/
theorem claim_C4 :
    (∀ (cap maxL : Nat) (es : List Ev),
      (run (mkInit cap maxL) es).logBuffer.length ≤ cap) ∧
    (∀ (s : ConsoleState) (l : String), s.hasConsole = true →
      s.isUserScrolling = true ∨ s.autoScroll = false → jsTrim l ≠ "" →
      s.logBuffer.length = s.maxBufferSize → s.logBuffer ≠ [] →
      (appendLogs s l).logBuffer = s.logBuffer.tail ++ [jsTrim l]) ∧
    ((run (mkInit 2 200) scenarioB).logBuffer = ["b", "c"] ∧
     (run (mkInit 2 200) scenarioB).indicatorShown = true ∧
     (run (mkInit 2 200) (scenarioB ++ [.stimer true])).rendered = ["b", "c"] ∧
     (run (mkInit 2 200) (scenarioB ++ [.stimer true])).logBuffer = [] ∧
     (run (mkInit 2 200) (scenarioB ++ [.stimer true])).indicatorShown = false) := by
  refine ⟨?_, ?_, by decide⟩
  · intro cap maxL es
    have h := run_buffer_cap es (mkInit cap maxL) (by simp [mkInit])
    exact h.1.trans_eq (h.2.trans rfl)
  · intro s l hc hscr hl hfull hne
    unfold appendLogs
    dsimp only [updateBufferIndicator]
    rw [if_neg (by simp [hl, hc]), if_pos (by rcases hscr with h | h <;> simp [h])]
    dsimp only
    rw [if_pos (by simp [hfull])]
    cases hb : s.logBuffer with
    | nil => exact absurd hb hne
    | cons a t => simp [hb]

theorem claim_C4_witness :
    (appendLogs (run (mkInit 2 200) scenarioB) "d").logBuffer = ["c", "d"] := by
  have h := claim_C4.2.1 (run (mkInit 2 200) scenarioB) "d"
    (by decide) (Or.inl (by decide)) (by decide) (by decide) (by decide)
  rw [h]
  decide

/-! ### C8: the rendered-line cap -/

/-- The trace for the counterexample: user-scrolled, 201 lines arrive and
are buffered (capacity 1000), then a flush. -/
def ce8Trace : List Ev := [.start, .wheel] ++ List.replicate 201 (.msg "x") ++ [.stimer true]

set_option maxRecDepth 100000 in
/-- C8, counterexample: `flushBuffer` never applies the line cap, so a
flush of 201 buffered lines leaves 201 rendered lines although
`maxLines = 200`. -/
theorem claim_C8_counterexample :
    (run init0 ce8Trace).maxLines = 200 ∧
    (run init0 ce8Trace).rendered.length = 201 := by decide

/-- C8 as amended: a *live* append while pinned enforces the cap — after
`appendLogs` the rendered log holds at most `maxLines` (= 200) lines, and
whatever is dropped is dropped from the oldest end only (the result is a
final segment of the old log plus the new line).  `flushBuffer` performs
no cap enforcement, so a flush may leave more than `maxLines` rendered
lines (see the counterexample); the cap is re-established on the next
live append. -/
theorem claim_C8_amended (s : ConsoleState) (l : String) (hc : s.hasConsole = true)
    (hu : s.isUserScrolling = false) (ha : s.autoScroll = true)
    (hl : jsTrim l ≠ "") (hm : s.maxLines = 200) :
    (appendLogs s l).rendered.length ≤ 200 ∧
    ∃ k, (appendLogs s l).rendered = (s.rendered ++ [jsTrim l]).drop k := by
  unfold appendLogs
  dsimp only
  rw [if_neg (by simp [hl, hc]), if_neg (by simp [hu, ha]), hm]
  dsimp only
  constructor
  · split
    · rename_i hgt
      unfold capLines
      rw [if_neg (by omega)]
      simp only [List.length_drop, List.length_append, List.length_singleton] at hgt ⊢
      omega
    · rename_i hle
      simp only [gt_iff_lt, not_lt, List.length_append, List.length_singleton] at hle ⊢
      omega
  · split
    · unfold capLines
      rw [if_neg (by omega)]
      exact ⟨_, rfl⟩
    · exact ⟨0, by simp⟩

theorem claim_C8_amended_witness :
    (appendLogs (run init0 [.start, .msg "a"]) "b").rendered.length ≤ 200 :=
  (claim_C8_amended (run init0 [.start, .msg "a"]) "b"
    (by decide) (by decide) (by decide) (by decide) (by decide)).1

/-! ### C1: rendered log + buffer is a subsequence of the pushed lines -/

/-- The reachability invariant used for C1: when the view is pinned (not
user-scrolling) and the console exists, auto-scroll is on and the buffer
is empty (every transition out of user-scrolling flushes — except
`forceBottom`, which is constrained separately); without a console the
buffer is never filled; and buffered lines are trimmed and non-empty. -/
def Inv (s : ConsoleState) : Prop :=
  (s.isUserScrolling = false → s.hasConsole = true → s.autoScroll = true ∧ s.logBuffer = []) ∧
  (s.hasConsole = false → s.logBuffer = []) ∧
  (∀ l ∈ s.logBuffer, jsTrim l = l ∧ l ≠ "")

theorem Inv_init (cap maxL : Nat) : Inv (mkInit cap maxL) := by
  refine ⟨fun _ _ => ⟨rfl, rfl⟩, fun h => by simp [mkInit] at h, fun l hl => ?_⟩
  simp [mkInit] at hl

theorem filterMap_clean (b : List String)
    (h : ∀ l ∈ b, jsTrim l = l ∧ l ≠ "") :
    (b.filterMap fun l =>
      let t := jsTrim l
      if t = "" then none else some t) = b := by
  induction b with
  | nil => rfl
  | cons a t ih =>
    have ha := h a (by simp)
    have hfa : (fun l => let t := jsTrim l; if t = "" then none else some t) a = some a := by
      simp only [ha.1]
      rw [if_neg ha.2]
    simp only [List.filterMap_cons, hfa]
    rw [ih fun l hl => h l (by simp [hl])]

/-- Running `flushBuffer` on a state whose buffer is empty is a no-op. -/
theorem flushBuffer_empty (s : ConsoleState) (h : s.logBuffer = []) :
    flushBuffer s = s := by
  unfold flushBuffer
  rw [if_pos (by simp [h])]

theorem appendLogs_C1 (s : ConsoleState) (d : String) (hInv : Inv s) :
    Inv (appendLogs s d) ∧
    List.Sublist ((appendLogs s d).rendered ++ (appendLogs s d).logBuffer)
      ((s.rendered ++ s.logBuffer) ++ (if jsTrim d = "" then [] else [jsTrim d])) := by
  obtain ⟨h1, h2, h3⟩ := hInv
  unfold appendLogs
  dsimp only [updateBufferIndicator]
  split
  · exact ⟨⟨h1, h2, h3⟩, List.sublist_append_left _ _⟩
  · rename_i hguard
    have hclean : jsTrim d ≠ "" := by
      intro h
      simp [h] at hguard
    have hcons : s.hasConsole = true := by
      by_contra h
      simp only [Bool.not_eq_true] at h
      simp [h] at hguard
    rw [if_neg hclean]
    split
    · rename_i hscr
      have hscr' : s.isUserScrolling = true ∨ s.autoScroll = false := by
        simpa using hscr
      -- buffered branch: the view is not pinned
      refine ⟨⟨?_, ?_, ?_⟩, ?_⟩
      · intro hu _
        dsimp only at hu
        rcases hscr' with h | h
        · rw [hu] at h
          exact absurd h (by simp)
        · rw [(h1 hu hcons).1] at h
          exact absurd h (by simp)
      · intro hcf
        dsimp only at hcf
        rw [hcons] at hcf
        exact absurd hcf (by simp)
      · intro l hl
        dsimp only at hl
        have hl' : l ∈ s.logBuffer ++ [jsTrim d] := by
          rcases (inferInstance :
              Decidable ((s.logBuffer ++ [jsTrim d]).length > s.maxBufferSize)) with hgt | hgt
          · simp only [if_neg hgt] at hl
            exact hl
          · simp only [if_pos hgt] at hl
            exact List.mem_of_mem_tail hl
        rcases List.mem_append.1 hl' with h | h
        · exact h3 l h
        · have : l = jsTrim d := by simpa using h
          subst this
          exact ⟨jsTrim_idem d, hclean⟩
      · dsimp only
        rw [List.append_assoc]
        refine List.Sublist.append_left ?_ _
        split
        · exact List.tail_sublist _
        · exact List.Sublist.refl _
    · rename_i hscr
      -- pinned branch: the buffer is empty by the invariant
      have hu : s.isUserScrolling = false := by
        by_contra h
        simp only [Bool.not_eq_true, Bool.not_eq_false] at h
        simp [h] at hscr
      have hbe : s.logBuffer = [] := (h1 hu hcons).2
      refine ⟨⟨fun _ _ => ⟨(h1 hu hcons).1, hbe⟩,
        fun hcf => by rw [hcons] at hcf; exact absurd hcf (by simp),
        fun l hl => by rw [hbe] at hl; exact absurd hl (by simp)⟩, ?_⟩
      dsimp only
      rw [hbe, List.append_nil, List.append_nil]
      have hsub : ∀ rr : List String,
          (rr = s.rendered ++ [jsTrim d] ∨ ∃ k, rr = (s.rendered ++ [jsTrim d]).drop k) →
          List.Sublist rr (s.rendered ++ [jsTrim d]) := by
        rintro rr (rfl | ⟨k, rfl⟩)
        · exact List.Sublist.refl _
        · exact List.drop_sublist _ _
      refine hsub _ ?_
      split
      · unfold capLines
        split
        · exact Or.inl rfl
        · exact Or.inr ⟨_, rfl⟩
      · exact Or.inl rfl

theorem flushBuffer_C1 (s : ConsoleState)
    (hcl : ∀ l ∈ s.logBuffer, jsTrim l = l ∧ l ≠ "") :
    (flushBuffer s).rendered ++ (flushBuffer s).logBuffer = s.rendered ++ s.logBuffer ∧
    (flushBuffer s).isUserScrolling = s.isUserScrolling ∧
    (flushBuffer s).autoScroll = s.autoScroll ∧
    (flushBuffer s).hasConsole = s.hasConsole ∧
    (∀ l ∈ (flushBuffer s).logBuffer, jsTrim l = l ∧ l ≠ "") ∧
    (s.hasConsole = true → (flushBuffer s).logBuffer = []) := by
  unfold flushBuffer
  split
  · rename_i hemp
    refine ⟨rfl, rfl, rfl, rfl, hcl, fun hc => ?_⟩
    simp only [hc, Bool.not_true, Bool.or_false, List.isEmpty_iff] at hemp
    exact hemp
  · rw [filterMap_clean _ hcl]
    dsimp only [updateBufferIndicator]
    exact ⟨by simp, rfl, rfl, rfl, by simp, fun _ => rfl⟩

/-- Both `Inv` and the subsequence relation are preserved by the flushes the
scroll path performs after forcing the pinned flags. -/
theorem flush_pinned_C1 (x : ConsoleState)
    (hcl : ∀ l ∈ x.logBuffer, jsTrim l = l ∧ l ≠ "")
    (_hu : x.isUserScrolling = false) (ha : x.autoScroll = true)
    (hnc : x.hasConsole = false → x.logBuffer = []) :
    Inv (flushBuffer x) ∧
    (flushBuffer x).rendered ++ (flushBuffer x).logBuffer = x.rendered ++ x.logBuffer := by
  have hf := flushBuffer_C1 x hcl
  refine ⟨⟨?_, ?_, hf.2.2.2.2.1⟩, hf.1⟩
  · intro _ hcf
    have hxc : x.hasConsole = true := (hf.2.2.2.1).symm.trans hcf
    exact ⟨hf.2.2.1.trans ha, hf.2.2.2.2.2 hxc⟩
  · intro hcf
    have hxc : x.hasConsole = false := (hf.2.2.2.1).symm.trans hcf
    have hxb : x.logBuffer = [] := hnc hxc
    rw [flushBuffer_empty x hxb]
    exact hxb

theorem step_C1 (s : ConsoleState) (e : Ev) (hInv : Inv s)
    (hfb : e = Ev.fb → s.logBuffer = []) :
    Inv (step s e) ∧
    List.Sublist ((step s e).rendered ++ (step s e).logBuffer)
      ((s.rendered ++ s.logBuffer) ++ pushesOf [e]) := by
  obtain ⟨h1, h2, h3⟩ := hInv
  cases e with
  | msg d =>
    have hp : pushesOf [Ev.msg d] = if jsTrim d = "" then [] else [jsTrim d] := by
      by_cases h : jsTrim d = "" <;> simp [pushesOf, h]
    rw [hp]
    simp only [step, onMessage]
    split
    · exact appendLogs_C1 s d ⟨h1, h2, h3⟩
    · exact ⟨⟨h1, h2, h3⟩, List.sublist_append_left _ _⟩
  | opened =>
    constructor
    · simp only [step, onOpen]
      split <;> exact ⟨h1, h2, h3⟩
    · have he : (step s .opened).rendered = s.rendered ∧
          (step s .opened).logBuffer = s.logBuffer := by
        simp only [step, onOpen]
        split <;> exact ⟨rfl, rfl⟩
      rw [he.1, he.2]
      exact List.sublist_append_left _ _
  | error c =>
    have hst : (step s (.error c)).rendered = s.rendered ∧
        (step s (.error c)).logBuffer = s.logBuffer ∧
        (step s (.error c)).isUserScrolling = s.isUserScrolling ∧
        (step s (.error c)).autoScroll = s.autoScroll ∧
        (step s (.error c)).hasConsole = s.hasConsole := by
      simp only [step, onError, stopSSE, reconnect]
      split
      · split
        · split <;> exact ⟨rfl, rfl, rfl, rfl, rfl⟩
        · exact ⟨rfl, rfl, rfl, rfl, rfl⟩
      · exact ⟨rfl, rfl, rfl, rfl, rfl⟩
    obtain ⟨e1, e2, e3, e4, e5⟩ := hst
    refine ⟨⟨?_, ?_, ?_⟩, ?_⟩
    · rw [e3, e4, e5, e2]
      exact h1
    · rw [e5, e2]
      exact h2
    · rw [e2]
      exact h3
    · rw [e1, e2]
      exact List.sublist_append_left _ _
  | rtimer =>
    have hst : (step s .rtimer).rendered = s.rendered ∧
        (step s .rtimer).logBuffer = s.logBuffer ∧
        (step s .rtimer).isUserScrolling = s.isUserScrolling ∧
        (step s .rtimer).autoScroll = s.autoScroll ∧
        (step s .rtimer).hasConsole = s.hasConsole := by
      simp only [step, onReconnectTimer, startFn]
      split <;> exact ⟨rfl, rfl, rfl, rfl, rfl⟩
    obtain ⟨e1, e2, e3, e4, e5⟩ := hst
    refine ⟨⟨?_, ?_, ?_⟩, ?_⟩
    · rw [e3, e4, e5, e2]
      exact h1
    · rw [e5, e2]
      exact h2
    · rw [e2]
      exact h3
    · rw [e1, e2]
      exact List.sublist_append_left _ _
  | stimer b =>
    simp only [step, onScrollTimer]
    split
    · split
      · have hx := flush_pinned_C1
          { s with scrollTimerPending := false, isUserScrolling := false, autoScroll := true }
          h3 rfl rfl h2
        refine ⟨hx.1, ?_⟩
        rw [hx.2]
        exact List.sublist_append_left _ _
      · exact ⟨⟨h1, h2, h3⟩, List.sublist_append_left _ _⟩
    · exact ⟨⟨h1, h2, h3⟩, List.sublist_append_left _ _⟩
  | scroll b =>
    simp only [step, onScroll]
    split
    · exact ⟨⟨h1, h2, h3⟩, List.sublist_append_left _ _⟩
    · rename_i hc
      simp only [Bool.not_eq_true', Bool.not_eq_false] at hc
      split
      · split
        · -- at bottom and was user-scrolling: flush
          have hx := flush_pinned_C1
            { s with isUserScrolling := false, scrollTimerPending := false, autoScroll := true }
            h3 rfl rfl (fun hcf => h2 hcf)
          refine ⟨?_, ?_⟩
          · -- finally the pending flag is set again; this only changes
            -- `scrollTimerPending`, which `Inv` does not mention
            obtain ⟨⟨i1, i2, i3⟩, _⟩ := hx
            exact ⟨fun hu hcf => i1 hu hcf, fun hcf => i2 hcf, i3⟩
          · rw [hx.2]
            exact List.sublist_append_left _ _
        · -- at bottom but was pinned: no flush, buffer was empty already
          rename_i hwas
          simp only [Bool.not_eq_true] at hwas
          have hbe : s.logBuffer = [] := (h1 hwas hc).2
          exact ⟨⟨fun _ _ => ⟨rfl, hbe⟩,
            fun hcf => by rw [hc] at hcf; exact absurd hcf (by simp),
            fun l hl => h3 l hl⟩, List.sublist_append_left _ _⟩
      · refine ⟨⟨?_, ?_, h3⟩, List.sublist_append_left _ _⟩
        · intro h _
          simp at h
        · intro hcf
          rw [hc] at hcf
          exact absurd hcf (by simp)
  | wheel =>
    simp only [step, onWheel]
    split
    · exact ⟨⟨h1, h2, h3⟩, List.sublist_append_left _ _⟩
    · rename_i hc
      simp only [Bool.not_eq_true', Bool.not_eq_false] at hc
      refine ⟨⟨?_, ?_, h3⟩, List.sublist_append_left _ _⟩
      · intro h _
        simp at h
      · intro hcf
        rw [hc] at hcf
        exact absurd hcf (by simp)
  | button =>
    simp only [step, onButton]
    split
    · exact ⟨⟨h1, h2, h3⟩, List.sublist_append_left _ _⟩
    · rename_i hc
      simp only [Bool.not_eq_true', Bool.not_eq_false] at hc
      have hx := flush_pinned_C1
        { s with autoScroll := true, isUserScrolling := false }
        h3 rfl rfl (fun hcf => h2 hcf)
      refine ⟨hx.1, ?_⟩
      rw [hx.2]
      exact List.sublist_append_left _ _
  | fb =>
    have hbe : s.logBuffer = [] := hfb rfl
    simp only [step, forceBottom]
    split
    · exact ⟨⟨h1, h2, h3⟩, List.sublist_append_left _ _⟩
    · exact ⟨⟨fun _ _ => ⟨rfl, hbe⟩, fun _ => hbe, fun l hl => h3 l hl⟩,
        List.sublist_append_left _ _⟩
  | start =>
    exact ⟨⟨h1, h2, h3⟩, List.sublist_append_left _ _⟩
  | stop =>
    simp only [step, stopFn]
    dsimp only [updateBufferIndicator]
    refine ⟨⟨fun hu hcf => ⟨(h1 hu hcf).1, rfl⟩, fun _ => rfl,
      fun l hl => absurd hl (by simp)⟩, ?_⟩
    simp only [List.append_nil]
    exact (List.sublist_append_left _ _).trans (List.sublist_append_left _ _)
  | toggle =>
    simp only [step, toggleFn, startFn, stopFn]
    dsimp only [updateBufferIndicator]
    split
    · exact ⟨⟨h1, h2, h3⟩, List.sublist_append_left _ _⟩
    · refine ⟨⟨fun hu hcf => ⟨(h1 hu hcf).1, rfl⟩, fun _ => rfl,
        fun l hl => absurd hl (by simp)⟩, ?_⟩
      simp only [List.append_nil]
      exact (List.sublist_append_left _ _).trans (List.sublist_append_left _ _)

/-- The trace constraint of the amended C1: `forceBottom` is only invoked
at instants where the buffer is empty. -/
def noBadFb (s : ConsoleState) : List Ev → Bool
  | [] => true
  | e :: es => (!decide (e = Ev.fb) || s.logBuffer.isEmpty) && noBadFb (step s e) es

theorem pushesOf_cons (e : Ev) (es : List Ev) :
    pushesOf (e :: es) = pushesOf [e] ++ pushesOf es := by
  cases e <;> simp only [pushesOf, List.filterMap_cons, List.filterMap_nil] <;>
    (try split) <;> simp

theorem run_C1 : ∀ (es : List Ev) (s : ConsoleState), Inv s → noBadFb s es = true →
    Inv (run s es) ∧
    List.Sublist ((run s es).rendered ++ (run s es).logBuffer)
      ((s.rendered ++ s.logBuffer) ++ pushesOf es)
  | [], s, h, _ => ⟨h, by
      rw [show pushesOf [] = [] from rfl, List.append_nil]
      exact List.Sublist.refl _⟩
  | e :: es, s, h, hnb => by
    have hnb' : (!decide (e = Ev.fb) || s.logBuffer.isEmpty) = true ∧
        noBadFb (step s e) es = true := by
      simpa [noBadFb, Bool.and_eq_true] using hnb
    have hfb : e = Ev.fb → s.logBuffer = [] := by
      intro he
      subst he
      rcases (by simpa [List.isEmpty_iff] using hnb'.1 :
          ¬(Ev.fb = Ev.fb) ∨ s.logBuffer = []) with hh | hh
      · exact absurd rfl hh
      · exact hh
    have h1 := step_C1 s e h hfb
    have h2 := run_C1 es (step s e) h1.1 hnb'.2
    refine ⟨h2.1, ?_⟩
    rw [pushesOf_cons]
    have hcomp := h2.2.trans (h1.2.append_right (pushesOf es))
    have hrun : run s (e :: es) = run (step s e) es := rfl
    rw [hrun]
    simpa [List.append_assoc] using hcomp

/-- C1, counterexample: the claim quantifies over interleavings that
include `forceBottom`.  User-scrolled, push `"a"` (buffered), then
`forceBottom()` (re-pins without flushing), then push `"b"` (rendered
immediately): the rendered log followed by the buffer reads `b, a`, which
is not a subsequence of the arrival order `a, b`. -/
theorem claim_C1_counterexample :
    (run init0 [.start, .wheel, .msg "a", .fb, .msg "b"]).rendered = ["b"] ∧
    (run init0 [.start, .wheel, .msg "a", .fb, .msg "b"]).logBuffer = ["a"] ∧
    pushesOf [.start, .wheel, .msg "a", .fb, .msg "b"] = ["a", "b"] ∧
    ¬ List.Sublist
        ((run init0 [.start, .wheel, .msg "a", .fb, .msg "b"]).rendered ++
          (run init0 [.start, .wheel, .msg "a", .fb, .msg "b"]).logBuffer)
        (pushesOf [.start, .wheel, .msg "a", .fb, .msg "b"]) := by decide

/-- C1 as amended: for every sequence of pushed lines and every
interleaving of scroll-state changes, flushes, and `forceBottom` calls
made only while the buffer is empty, the rendered log followed by the
buffered queue, read in arrival order, is a subsequence of the
(trimmed, non-empty) pushed lines: no duplication, no reordering. -/
theorem claim_C1_amended (es : List Ev) (h : noBadFb init0 es = true) :
    List.Sublist ((run init0 es).rendered ++ (run init0 es).logBuffer)
      (pushesOf es) := by
  have := (run_C1 es init0 (Inv_init 1000 200) h).2
  simpa [init0, mkInit] using this

theorem claim_C1_amended_witness :
    List.Sublist
      ((run init0 [.start, .wheel, .msg "a", .msg "b", .stimer true, .msg "c"]).rendered ++
        (run init0 [.start, .wheel, .msg "a", .msg "b", .stimer true, .msg "c"]).logBuffer)
      (pushesOf [.start, .wheel, .msg "a", .msg "b", .stimer true, .msg "c"]) :=
  claim_C1_amended [.start, .wheel, .msg "a", .msg "b", .stimer true, .msg "c"] (by decide)

/-! ### C9: font-size controls and preference storage -/

/-- The `#consoleFont` range input as `setFont` reads it: the `min`/`max`
attributes parsed by unary `+` (`none` models a missing/unparsable
attribute, i.e. `NaN`; the page markup uses integer attributes, so the
parsed values are modelled as integers), and the written-back `value`. -/
structure FontInput where
  minAttr : Option Int
  maxAttr : Option Int
  value : String
  deriving Repr, DecidableEq

/-- The state `setFont`/`adjustFont` touch: `state.fontSize`, the
`localStorage` entry under `state.fontKey = 'Console.fontPx'`, and the
`#consoleFont` input if present. -/
structure FontState where
  fontSize : Rat
  storage : Option String
  inp : Option FontInput
  deriving Repr, DecidableEq

/-- JavaScript `x || d` after `+attr`: `NaN` (unparsable) and `0` are
falsy and give the default. -/
def jsOrDefault (x : Option Int) (d : Int) : Int :=
  match x with
  | none => d
  | some q => if q = 0 then d else q

/-- JS `Math.round`: round half toward positive infinity. -/
def jsRound (q : Rat) : Int := ⌊q + 1 / 2⌋

/-- Source `const min = inp ? (+inp.min || 2) : 2`. -/
def fontMin (s : FontState) : Int :=
  match s.inp with
  | none => 2
  | some i => jsOrDefault i.minAttr 2

/-- Source `const max = inp ? (+inp.max || 24) : 24`. -/
def fontMax (s : FontState) : Int :=
  match s.inp with
  | none => 24
  | some i => jsOrDefault i.maxAttr 24

/-- Source `Math.max(min, Math.min(max, Math.round(px)))`. -/
def fontClamp (s : FontState) (px : Rat) : Int :=
  max (fontMin s) (min (fontMax s) (jsRound px))

/-- Source `setFont(px)` (the `style.fontSize`/`--console-font`/`backgroundSize`
writes are presentational mirrors of `v` and are not separate state). -/
def setFont (s : FontState) (px : Rat) : FontState :=
  let v := fontClamp s px
  { s with
    fontSize := (v : Rat)
    storage := some (toString v)
    inp := s.inp.map fun i => { i with value := toString v } }

/-- Source `adjustFont(delta)`: `state.fontSize += delta` and a style write —
no clamping, no storage write. -/
def adjustFont (s : FontState) (delta : Rat) : FontState :=
  { s with fontSize := s.fontSize + delta }

/-- A font state with no `#consoleFont` input and nothing stored yet. -/
def fontInit : FontState := { fontSize := 12, storage := none, inp := none }

/-- C9, counterexample: `adjustFont(1)` is a font-size change through the
public control surface (`state.fontSize` goes from 12 to 13) but writes
nothing to browser-local storage. -/
theorem claim_C9_counterexample :
    (adjustFont fontInit 1).fontSize = 13 ∧
    (adjustFont fontInit 1).fontSize ≠ fontInit.fontSize ∧
    (adjustFont fontInit 1).storage = none := by
  refine ⟨by norm_num [adjustFont, fontInit], by norm_num [adjustFont, fontInit], rfl⟩

/-- C9 as amended: every `setFont(px)` call writes the resulting size —
the rounded value clamped between the configured minimum and maximum —
to storage under the fixed key as a decimal string, and that stored value
is an integer within the bounds; `adjustFont(delta)` changes the font
size without clamping and without writing storage. -/
theorem claim_C9_amended (s : FontState) (px : Rat)
    (h : fontMin s ≤ fontMax s) :
    ((setFont s px).storage = some (toString (fontClamp s px)) ∧
     fontMin s ≤ fontClamp s px ∧ fontClamp s px ≤ fontMax s ∧
     (setFont s px).fontSize = (fontClamp s px : Rat)) ∧
    ∀ δ : Rat, (adjustFont s δ).storage = s.storage := by
  refine ⟨⟨rfl, le_max_left _ _, ?_, rfl⟩, fun _ => rfl⟩
  exact max_le h (min_le_left _ _)

theorem claim_C9_amended_witness :
    (setFont fontInit 100).storage = some "24" := by
  have h := (claim_C9_amended fontInit 100 (by decide)).1.1
  rw [h]
  have hv : fontClamp fontInit 100 = 24 := by
    norm_num [fontClamp, fontMin, fontMax, jsRound, fontInit, jsOrDefault]
  rw [hv]
  decide

/-! ### The line-decoration pipeline (`processLogLine`)

The three passes of `processLogLine` are embedded as character-list
scanners.  Pass 1 and pass 2 are JS `String.replace` with global regexes;
a regex scan advances left-to-right, attempting a match at each position
and emitting unmatched characters unchanged, so each pass is a scanner
with one-token lookahead.  Scanners whose recursion consumes a matched
token (not just the head character) take a fuel argument, instantiated
with the input length (every step consumes at least one character). -/

/-- JS regex word character `\w` / the boundary class of `\b`:
`[A-Za-z0-9_]`. -/
def isWordChar (c : Char) : Bool :=
  ('A' ≤ c && c ≤ 'Z') || ('a' ≤ c && c ≤ 'z') || ('0' ≤ c && c ≤ '9') || c = '_'

def isDigitChar (c : Char) : Bool := '0' ≤ c && c ≤ '9'

/-- ASCII lower-casing (JS `toLowerCase` on the ASCII range). -/
def lowerChar (c : Char) : Char :=
  if c = 'A' then 'a'
  else if c = 'B' then 'b'
  else if c = 'C' then 'c'
  else if c = 'D' then 'd'
  else if c = 'E' then 'e'
  else if c = 'F' then 'f'
  else if c = 'G' then 'g'
  else if c = 'H' then 'h'
  else if c = 'I' then 'i'
  else if c = 'J' then 'j'
  else if c = 'K' then 'k'
  else if c = 'L' then 'l'
  else if c = 'M' then 'm'
  else if c = 'N' then 'n'
  else if c = 'O' then 'o'
  else if c = 'P' then 'p'
  else if c = 'Q' then 'q'
  else if c = 'R' then 'r'
  else if c = 'S' then 's'
  else if c = 'T' then 't'
  else if c = 'U' then 'u'
  else if c = 'V' then 'v'
  else if c = 'W' then 'w'
  else if c = 'X' then 'x'
  else if c = 'Y' then 'y'
  else if c = 'Z' then 'z'
  else c

/-- ASCII upper-casing (JS `toUpperCase` on the ASCII range). -/
def upperChar (c : Char) : Char :=
  if c = 'a' then 'A'
  else if c = 'b' then 'B'
  else if c = 'c' then 'C'
  else if c = 'd' then 'D'
  else if c = 'e' then 'E'
  else if c = 'f' then 'F'
  else if c = 'g' then 'G'
  else if c = 'h' then 'H'
  else if c = 'i' then 'I'
  else if c = 'j' then 'J'
  else if c = 'k' then 'K'
  else if c = 'l' then 'L'
  else if c = 'm' then 'M'
  else if c = 'n' then 'N'
  else if c = 'o' then 'O'
  else if c = 'p' then 'P'
  else if c = 'q' then 'Q'
  else if c = 'r' then 'R'
  else if c = 's' then 'S'
  else if c = 't' then 'T'
  else if c = 'u' then 'U'
  else if c = 'v' then 'V'
  else if c = 'w' then 'W'
  else if c = 'x' then 'X'
  else if c = 'y' then 'Y'
  else if c = 'z' then 'Z'
  else c

/-- Case-insensitive character comparison, as the `i` regex flag. -/
def ciEq (a b : Char) : Bool := lowerChar a = lowerChar b

/-- There is a word boundary between the end of a word-character token and
this remainder (end of input, or a non-word character). -/
def boundaryOk : List Char → Bool
  | [] => true
  | c :: _ => !isWordChar c

def startsWithLit : List Char → List Char → Bool
  | [], _ => true
  | _ :: _, [] => false
  | a :: as, b :: bs => a = b && startsWithLit as bs

def ciStartsWith : List Char → List Char → Bool
  | [], _ => true
  | _ :: _, [] => false
  | a :: as, b :: bs => ciEq a b && ciStartsWith as bs

/-- Source `hueFromString`: `h = (h*31 + charCode) >>> 0` folded over the
characters, then `% 360`. -/
def hueFromList (l : List Char) : Nat :=
  (l.foldl (fun h c => (h * 31 + c.toNat) % 4294967296) 0) % 360

/-- Decimal digits of a natural number (for the `--h:${hue}`
interpolation), fuelled. -/
def digitChar (n : Nat) : Char := Char.ofNat (48 + n)

def natDigitsAux : Nat → Nat → List Char
  | 0, _ => []
  | f + 1, n => if n < 10 then [digitChar n] else natDigitsAux f (n / 10) ++ [digitChar (n % 10)]

def natDigits (n : Nat) : List Char := natDigitsAux (n + 1) n

/-- The markup fragments inserted by the decoration passes. -/
def logfileOpen (hue : Nat) : List Char :=
  "<span class=\"logfile\" style=\"--h:".data ++ natDigits hue ++ "\">".data

def closeSpan : List Char := "</span>".data

def lvlOpen (cls : List Char) : List Char :=
  "<span class=\"loglvl ".data ++ cls ++ "\">".data

def lineNumOpen : List Char := "<span class=\"line-number\">".data

def numOpen : List Char := "<span class=\"number\">".data

/-- Helper `afterLit pat l`: the remainder of `l` after `pat`, when `pat` is
a prefix. -/
def afterLit (pat l : List Char) : Option (List Char) :=
  if startsWithLit pat l then some (l.drop pat.length) else none

/-- Backtracking search for `pat` preceded by a (possibly empty) gap of
characters other than `stop`, then `cont` on the remainder: the regex
fragment `[^stop]*pat...`. -/
def gapSearch (stop : Char) (pat : List Char) (cont : List Char → Bool) : List Char → Bool
  | [] =>
    match afterLit pat [] with
    | some r => cont r
    | none => false
  | c :: rest =>
    (match afterLit pat (c :: rest) with
     | some r => cont r
     | none => false) ||
    (!(c = stop) && gapSearch stop pat cont rest)

/-- The double-wrap guard `/<span[^>]*class="[^"]*logfile/.test(m)` of
pass 1. -/
def guardLogfile : List Char → Bool
  | [] => false
  | c :: rest =>
    (match afterLit "<span".data (c :: rest) with
     | some r =>
       gapSearch '>' "class=\"".data
         (fun r2 => gapSearch '"' "logfile".data (fun _ => true) r2) r
     | none => false) ||
    guardLogfile rest

/-- Pass 1, `\b([A-Za-z0-9_]+\.py)\b/g`: wrap each maximal word-character
run followed by `.py` at a word boundary.  The matched token `m` is the
run plus `.py`; the guard is tested on `m` (as in the source), and the
hue is derived from `m`. -/
def wrapPyF : Nat → List Char → List Char
  | 0, l => l
  | _ + 1, [] => []
  | f + 1, c :: rest =>
    if isWordChar c then
      let run := c :: rest.takeWhile isWordChar
      let rest' := rest.dropWhile isWordChar
      match rest' with
      | '.' :: 'p' :: 'y' :: rest'' =>
        if boundaryOk rest'' then
          let m := run ++ ".py".data
          if guardLogfile m then m ++ wrapPyF f rest''
          else logfileOpen (hueFromList m) ++ m ++ closeSpan ++ wrapPyF f rest''
        else run ++ wrapPyF f rest'
      | _ => run ++ wrapPyF f rest'
    else c :: wrapPyF f rest

def wrapPy (l : List Char) : List Char := wrapPyF l.length l

/-- The alternatives of pass 2, in source order. -/
def levelAlts : List (List Char) :=
  ["DEBUG".data, "INFO".data, "WARNING".data, "ERROR".data, "CRITICAL".data,
   "SUCCESS".data, "failed".data, "Connected".data, "SSE stream closed".data]

/-- Source `state.levelClasses[key] || 'info'`. -/
def levelClassOf (key : List Char) : List Char :=
  if key = "DEBUG".data then "debug".data
  else if key = "INFO".data then "info".data
  else if key = "WARNING".data then "warning".data
  else if key = "ERROR".data then "error".data
  else if key = "CRITICAL".data then "critical".data
  else if key = "SUCCESS".data then "success".data
  else "info".data

/-- The first alternative that matches case-insensitively at this
position with a trailing word boundary (no alternative is a prefix of
another, so this is the regex alternation order). -/
def findAlt (l : List Char) : Option (List Char) :=
  levelAlts.find? fun alt => ciStartsWith alt l && boundaryOk (l.drop alt.length)

/-- Pass 2, the level badge replacement: at each position with a word
boundary before it (tracked by `prevW`, whether the previous character
was a word character — every alternative begins with a word character),
replace the first matching alternative by the badge span holding the
upper-cased matched text.  Every alternative ends in a word character,
so after a match the previous-character class is `true`. -/
def levelF : Nat → Bool → List Char → List Char
  | 0, _, l => l
  | _ + 1, _, [] => []
  | f + 1, prevW, c :: rest =>
    if !prevW then
      match findAlt (c :: rest) with
      | some alt =>
        let m := (c :: rest).take alt.length
        let key := m.map upperChar
        lvlOpen (levelClassOf key) ++ key ++ closeSpan ++
          levelF f true ((c :: rest).drop alt.length)
      | none => c :: levelF f (isWordChar c) rest
    else c :: levelF f (isWordChar c) rest

def levelScan (l : List Char) : List Char := levelF l.length false l

/-- A chunk of the `split(/(<[^>]+>)/g)` decomposition of pass 3: odd
positions of the JS split are the captured tags, even positions the text
between them. -/
inductive Chunk where
  | text (t : List Char)
  | tag (t : List Char)
  deriving Repr, DecidableEq

/-- The splitter: a tag is `<`, then at least one character other than
`>`, then `>`, scanning left to right (earliest match first; the
character class does not cross a `>`).  `pending` holds, reversed, a
candidate tag opened at the last unresolved `<`; `acc` the preceding
text, reversed. -/
def parseGo : List Char → Option (List Char) → List Char → List Chunk
  | [], none, acc => [.text acc.reverse]
  | [], some p, acc => [.text (acc.reverse ++ p.reverse)]
  | c :: rest, none, acc =>
    if c = '<' then parseGo rest (some [c]) acc
    else parseGo rest none (c :: acc)
  | c :: rest, some p, acc =>
    if c = '>' then
      if 2 ≤ p.length then
        .text acc.reverse :: .tag (p.reverse ++ ['>']) :: parseGo rest none []
      else parseGo rest none ('>' :: p ++ acc)
    else parseGo rest (some (c :: p)) acc

def parseChunks (l : List Char) : List Chunk := parseGo l none []

/-- The `^\d+` replacement of pass 3 (line-number class on a leading
digit run). -/
def step1 (l : List Char) : List Char :=
  let d := l.takeWhile isDigitChar
  if d = [] then l
  else lineNumOpen ++ d ++ closeSpan ++ l.dropWhile isDigitChar

/-- The `\b\d+\b/g` replacement of pass 3: wrap maximal digit runs
delimited by word boundaries on both sides. -/
def numF : Nat → Bool → List Char → List Char
  | 0, _, l => l
  | _ + 1, _, [] => []
  | f + 1, prevW, c :: rest =>
    if isDigitChar c && !prevW then
      let run := c :: rest.takeWhile isDigitChar
      let rest' := rest.dropWhile isDigitChar
      if boundaryOk rest' then numOpen ++ run ++ closeSpan ++ numF f true rest'
      else run ++ numF f true rest'
    else c :: numF f (isWordChar c) rest

/-- The per-chunk transform of pass 3: the `^\d+` replacement, then the
`\b\d+\b` replacement applied to its output (as in the source, where the
second `replace` runs on the already-substituted chunk). -/
def numTransform (l : List Char) : List Char :=
  numF (step1 l).length false (step1 l)

def transformChunk : Chunk → List Char
  | .text t => numTransform t
  | .tag t => t

def joinChunks : List Chunk → List Char
  | [] => []
  | ch :: r => transformChunk ch ++ joinChunks r

/-- Source `highlightNumbersOutsideTags`: split on tags, transform only the text
chunks, rejoin. -/
def highlightTags (l : List Char) : List Char := joinChunks (parseChunks l)

/-- Source `processLogLine`: pass 1 (`*.py` bubbles), pass 2 (level badges),
pass 3 (numbers outside tags). -/
def processLogLineL (l : List Char) : List Char :=
  highlightTags (levelScan (wrapPy l))

def processLogLine (s : String) : String := ⟨processLogLineL s.data⟩

/-- String-level `highlightNumbersOutsideTags`. -/
def highlightNumbersOutsideTags (s : String) : String := ⟨highlightTags s.data⟩

/-! ### C5: the double-wrap guard is dead code -/

set_option maxRecDepth 100000 in
/-- C5: the code violates the claim (and its own `// avoid double-wrap`
comment).  The guard regex is tested against the *matched token* `m`,
which the pattern `\b([A-Za-z0-9_]+\.py)\b` restricts to word characters
plus `.py` — it can never contain `<span`, so the guard never fires, and
re-decorating already-decorated output wraps the filename in a second
nested `logfile` span. -/
theorem claim_C5_bug :
    processLogLine "worker.py" =
      "<span class=\"logfile\" style=\"--h:9\">worker.py</span>" ∧
    processLogLine (processLogLine "worker.py") ≠ processLogLine "worker.py" ∧
    processLogLine (processLogLine "worker.py") =
      "<span class=\"logfile\" style=\"--h:9\"><span class=\"logfile\" style=\"--h:9\">worker.py</span></span>" := by
  decide

/-! ### C6: numeric highlighting never touches tag interiors -/

theorem parseGo_clean_text : ∀ (a : List Char), '<' ∉ a → ∀ (rest acc : List Char),
    parseGo (a ++ rest) none acc = parseGo rest none (a.reverse ++ acc)
  | [], _, rest, acc => by simp
  | c :: a', h, rest, acc => by
    have hc : c ≠ '<' := fun hh => h (hh ▸ List.mem_cons_self c a')
    have ha' : '<' ∉ a' := fun hh => h (List.mem_cons_of_mem c hh)
    show parseGo (c :: (a' ++ rest)) none acc = _
    rw [parseGo, if_neg hc, parseGo_clean_text a' ha' rest (c :: acc)]
    simp

theorem parseGo_pending : ∀ (mid : List Char), '>' ∉ mid → ∀ (rest p acc : List Char),
    parseGo (mid ++ rest) (some p) acc = parseGo rest (some (mid.reverse ++ p)) acc
  | [], _, rest, p, acc => by simp
  | c :: mid', h, rest, p, acc => by
    have hc : c ≠ '>' := fun hh => h (hh ▸ List.mem_cons_self c mid')
    have hm' : '>' ∉ mid' := fun hh => h (List.mem_cons_of_mem c hh)
    show parseGo (c :: (mid' ++ rest)) (some p) acc = _
    rw [parseGo, if_neg hc, parseGo_pending mid' hm' rest (c :: p) acc]
    simp

/-- The splitter of `highlightNumbersOutsideTags` respects any
decomposition "tag-free prefix, then a well-formed tag, then anything":
the earliest-match scan cuts exactly at that tag. -/
theorem parse_decomp (a mid b : List Char) (ha : '<' ∉ a) (hm : mid ≠ [])
    (hmid : '>' ∉ mid) :
    parseChunks (a ++ ('<' :: (mid ++ ['>'])) ++ b) =
      .text a :: .tag ('<' :: (mid ++ ['>'])) :: parseChunks b := by
  unfold parseChunks
  rw [List.append_assoc, parseGo_clean_text a ha _ [], List.append_nil]
  show parseGo ('<' :: ((mid ++ ['>']) ++ b)) none a.reverse = _
  rw [parseGo, if_pos rfl, List.append_assoc, parseGo_pending mid hmid _ ['<'] a.reverse]
  show parseGo ('>' :: b) (some (mid.reverse ++ ['<'])) a.reverse = _
  rw [parseGo, if_pos rfl, if_pos]
  · simp
  · have : mid.reverse ≠ [] := by simpa using hm
    cases hr : mid.reverse with
    | nil => exact absurd hr this
    | cons x xs => simp [hr]
      -- length (x :: xs ++ ['<']) = xs.length + 2 ≥ 2

/-- C6: numeric highlighting is applied only outside markup tags.  For
*every* input that decomposes as a tag-free prefix `a`, a well-formed tag
`'<' :: mid ++ ['>']` (non-empty interior containing no `>` — in
particular a span with a style attribute such as `--h:246`), and an
arbitrary remainder `b`, the pass emits the whole tag — every character
inside it — unchanged, transforming only the text around it; the
remainder is processed independently, so the decomposition applies
recursively to every tag of the input, and equally when the pass is run
a second time over already-decorated output. -/
theorem claim_C6 (a mid b : List Char) (ha : '<' ∉ a) (hm : mid ≠ [])
    (hmid : '>' ∉ mid) :
    highlightTags (a ++ ('<' :: (mid ++ ['>'])) ++ b) =
      numTransform a ++ ('<' :: (mid ++ ['>'])) ++ highlightTags b := by
  unfold highlightTags
  rw [parse_decomp a mid b ha hm hmid]
  show numTransform a ++ (('<' :: (mid ++ ['>'])) ++ joinChunks (parseChunks b)) = _
  rw [List.append_assoc]

set_option maxRecDepth 10000 in
/-- Witness: the decorated line `x: <span class="logfile"
style="--h:246">worker.py</span> 12` re-enters the highlighting pass; the
claim instance shows the span — its `--h:246` digits included — is
emitted unchanged. -/
theorem claim_C6_witness :
    highlightTags ("x: ".data ++
        ('<' :: ("span class=\"logfile\" style=\"--h:246\"".data ++ ['>'])) ++
        "worker.py</span> 12".data) =
      numTransform "x: ".data ++
        ('<' :: ("span class=\"logfile\" style=\"--h:246\"".data ++ ['>'])) ++
        highlightTags "worker.py</span> 12".data :=
  claim_C6 _ _ _ (by decide) (by decide) (by decide)

/-! ### C7: decoration preserves the logical content of the line

The formal notion of "stripping the added markup": remove every
`<...>` tag from the decorated string.  Content preservation is proved
through a segment representation of the intermediate strings: a list of
text pieces (free of `<`/`>`) and well-formed tags, such that each pass
maps well-formed segments to well-formed segments, keeping the text
content — up to the upper-casing the level pass applies to matched level
keywords, which is exactly what the counterexample below exhibits. -/

/-- Tag remover: outside a tag, copy characters until `<`; inside,
discard until `>`. -/
def stripGo : Bool → List Char → List Char
  | _, [] => []
  | false, c :: rest => if c = '<' then stripGo true rest else c :: stripGo false rest
  | true, c :: rest => if c = '>' then stripGo false rest else stripGo true rest

def stripTags (l : List Char) : List Char := stripGo false l

def stripMarkup (s : String) : String := ⟨stripTags s.data⟩

def lowerL (l : List Char) : List Char := l.map lowerChar

/-- A piece of an intermediate pipeline string: literal text or one
markup tag. -/
inductive Seg where
  | txt (t : List Char)
  | tg (t : List Char)
  deriving Repr, DecidableEq

def flatS : List Seg → List Char
  | [] => []
  | .txt t :: r => t ++ flatS r
  | .tg t :: r => t ++ flatS r

def contentS : List Seg → List Char
  | [] => []
  | .txt t :: r => t ++ contentS r
  | .tg _ :: r => contentS r

def CleanTxt (t : List Char) : Prop := '<' ∉ t ∧ '>' ∉ t

def GoodTag (t : List Char) : Prop :=
  ∃ mid, t = '<' :: (mid ++ ['>']) ∧ mid ≠ [] ∧ '>' ∉ mid ∧ '<' ∉ mid

def GoodSeg : Seg → Prop
  | .txt t => CleanTxt t
  | .tg t => GoodTag t

def GoodSegs (segs : List Seg) : Prop := ∀ sg ∈ segs, GoodSeg sg

theorem stripGo_copy : ∀ (t rest : List Char), '<' ∉ t →
    stripGo false (t ++ rest) = t ++ stripGo false rest
  | [], _, _ => rfl
  | c :: t', rest, h => by
    have hc : c ≠ '<' := fun hh => h (hh ▸ List.mem_cons_self c t')
    show stripGo false (c :: (t' ++ rest)) = _
    rw [stripGo, if_neg hc, stripGo_copy t' rest fun hh => h (List.mem_cons_of_mem c hh)]
    rfl

theorem stripGo_skip : ∀ (mid rest : List Char), '>' ∉ mid →
    stripGo true (mid ++ rest) = stripGo true rest
  | [], _, _ => rfl
  | c :: m', rest, h => by
    have hc : c ≠ '>' := fun hh => h (hh ▸ List.mem_cons_self c m')
    show stripGo true (c :: (m' ++ rest)) = _
    rw [stripGo, if_neg hc, stripGo_skip m' rest fun hh => h (List.mem_cons_of_mem c hh)]

theorem strip_flat : ∀ (segs : List Seg), GoodSegs segs →
    stripTags (flatS segs) = contentS segs
  | [], _ => rfl
  | .txt t :: r, h => by
    have ht : CleanTxt t := h (.txt t) (by simp)
    have hr : GoodSegs r := fun sg hs => h sg (by simp [hs])
    show stripGo false (t ++ flatS r) = t ++ contentS r
    rw [stripGo_copy t _ ht.1]
    rw [show stripGo false (flatS r) = stripTags (flatS r) from rfl, strip_flat r hr]
  | .tg t :: r, h => by
    obtain ⟨mid, rfl, _, hgt, _⟩ := h (.tg t) (by simp)
    have hr : GoodSegs r := fun sg hs => h sg (by simp [hs])
    show stripGo false ('<' :: (mid ++ ['>']) ++ flatS r) = contentS r
    rw [show ('<' :: (mid ++ ['>']) ++ flatS r) = '<' :: (mid ++ ('>' :: flatS r)) by simp]
    rw [stripGo, if_pos rfl, stripGo_skip mid _ hgt]
    show stripGo false (flatS r) = _
    exact strip_flat r hr

/-- C7, counterexample: the level pass replaces a matched keyword by its
*upper-cased* text inside the badge, so stripping the markup from the
decorated `"failed"` yields `"FAILED"`, not the original trimmed text. -/
theorem claim_C7_counterexample :
    processLogLine "failed" = "<span class=\"loglvl info\">FAILED</span>" ∧
    stripMarkup (processLogLine "failed") = "FAILED" ∧
    jsTrim "failed" = "failed" ∧
    stripMarkup (processLogLine "failed") ≠ jsTrim "failed" := by decide

/-! #### Fuel irrelevance

Each scanner consumes at least one input character per unit of fuel, so
any fuel of at least the input length gives the same result. -/

theorem length_dropWhile_le' (p : Char → Bool) (l : List Char) :
    (l.dropWhile p).length ≤ l.length :=
  (List.dropWhile_sublist p (l := l)).length_le

theorem wrapPyF_fuel : ∀ (n : Nat) (l : List Char) (m : Nat),
    n ≥ l.length → m ≥ l.length → wrapPyF n l = wrapPyF m l := by
  intro n
  induction n with
  | zero =>
    intro l m hn hm
    have hl : l = [] := List.eq_nil_of_length_eq_zero (by omega)
    subst hl
    cases m <;> rfl
  | succ n' ih =>
    intro l m hn hm
    cases l with
    | nil => cases m <;> rfl
    | cons c rest =>
      obtain ⟨m', rfl⟩ : ∃ k, m = k + 1 := ⟨m - 1, by simp at hm; omega⟩
      have hn' : n' ≥ rest.length := by simp at hn; omega
      have hm' : m' ≥ rest.length := by simp at hm; omega
      have hd := length_dropWhile_le' isWordChar rest
      simp only [wrapPyF]
      by_cases hw : isWordChar c
      · simp only [if_pos hw]
        split
        · rename_i rest'' heq
          have h3 : rest''.length + 3 ≤ rest.length := by
            rw [heq] at hd
            simpa using hd
          split
          · split
            · rw [ih rest'' m' (by omega) (by omega)]
            · rw [ih rest'' m' (by omega) (by omega)]
          · rw [ih (rest.dropWhile isWordChar) m' (by omega) (by omega)]
        · rw [ih (rest.dropWhile isWordChar) m' (by omega) (by omega)]
      · simp only [if_neg hw]
        rw [ih rest m' (by omega) (by omega)]

theorem levelAlts_len : ∀ alt ∈ levelAlts, 1 ≤ alt.length := by decide

theorem findAlt_mem {l : List Char} {alt : List Char} (h : findAlt l = some alt) :
    alt ∈ levelAlts :=
  List.mem_of_find?_eq_some h

theorem levelF_fuel : ∀ (n : Nat) (p : Bool) (l : List Char) (m : Nat),
    n ≥ l.length → m ≥ l.length → levelF n p l = levelF m p l := by
  intro n
  induction n with
  | zero =>
    intro p l m hn hm
    have hl : l = [] := List.eq_nil_of_length_eq_zero (by omega)
    subst hl
    cases m <;> rfl
  | succ n' ih =>
    intro p l m hn hm
    cases l with
    | nil => cases m <;> rfl
    | cons c rest =>
      obtain ⟨m', rfl⟩ : ∃ k, m = k + 1 := ⟨m - 1, by simp at hm; omega⟩
      have hn' : n' ≥ rest.length := by simp at hn; omega
      have hm' : m' ≥ rest.length := by simp at hm; omega
      simp only [levelF]
      by_cases hp : !p
      · simp only [if_pos hp]
        cases hfind : findAlt (c :: rest) with
        | none =>
          simp only [hfind]
          rw [ih (isWordChar c) rest m' (by omega) (by omega)]
        | some alt =>
          simp only [hfind]
          have ha1 : 1 ≤ alt.length := levelAlts_len alt (findAlt_mem hfind)
          have : ((c :: rest).drop alt.length).length ≤ rest.length := by
            simp only [List.length_drop, List.length_cons]
            omega
          rw [ih true ((c :: rest).drop alt.length) m' (by omega) (by omega)]
      · simp only [if_neg hp]
        rw [ih (isWordChar c) rest m' (by omega) (by omega)]

theorem numF_fuel : ∀ (n : Nat) (p : Bool) (l : List Char) (m : Nat),
    n ≥ l.length → m ≥ l.length → numF n p l = numF m p l := by
  intro n
  induction n with
  | zero =>
    intro p l m hn hm
    have hl : l = [] := List.eq_nil_of_length_eq_zero (by omega)
    subst hl
    cases m <;> rfl
  | succ n' ih =>
    intro p l m hn hm
    cases l with
    | nil => cases m <;> rfl
    | cons c rest =>
      obtain ⟨m', rfl⟩ : ∃ k, m = k + 1 := ⟨m - 1, by simp at hm; omega⟩
      have hn' : n' ≥ rest.length := by simp at hn; omega
      have hm' : m' ≥ rest.length := by simp at hm; omega
      have hd := length_dropWhile_le' isDigitChar rest
      simp only [numF]
      by_cases hc : isDigitChar c && !p
      · simp only [if_pos hc]
        split
        · rw [ih true (rest.dropWhile isDigitChar) m' (by omega) (by omega)]
        · rw [ih true (rest.dropWhile isDigitChar) m' (by omega) (by omega)]
      · simp only [if_neg hc]
        rw [ih (isWordChar c) rest m' (by omega) (by omega)]

/-! #### Segment helpers -/

/-- Cons a text piece onto a segment list, merging with a leading text
segment to keep the representation free of adjacent text pieces. -/
def consTxt (t : List Char) : List Seg → List Seg
  | .txt u :: r => .txt (t ++ u) :: r
  | segs => .txt t :: segs

def isTxt : Seg → Bool
  | .txt _ => true
  | .tg _ => false

/-- No two adjacent text segments. -/
def noAdjTxt : List Seg → Bool
  | [] => true
  | sg :: rest => !(isTxt sg && ((rest.head?.map isTxt).getD false)) && noAdjTxt rest

theorem flatS_consTxt (t : List Char) (segs : List Seg) :
    flatS (consTxt t segs) = t ++ flatS segs := by
  cases segs with
  | nil => simp [consTxt, flatS]
  | cons sg r => cases sg <;> simp [consTxt, flatS]

theorem contentS_consTxt (t : List Char) (segs : List Seg) :
    contentS (consTxt t segs) = t ++ contentS segs := by
  cases segs with
  | nil => simp [consTxt, contentS]
  | cons sg r => cases sg <;> simp [consTxt, contentS]

theorem cleanTxt_append {a b : List Char} (ha : CleanTxt a) (hb : CleanTxt b) :
    CleanTxt (a ++ b) := by
  constructor
  · intro h
    rcases List.mem_append.1 h with h | h
    · exact ha.1 h
    · exact hb.1 h
  · intro h
    rcases List.mem_append.1 h with h | h
    · exact ha.2 h
    · exact hb.2 h

theorem goodSegs_consTxt {t : List Char} {segs : List Seg} (ht : CleanTxt t)
    (hs : GoodSegs segs) : GoodSegs (consTxt t segs) := by
  cases segs with
  | nil =>
    intro sg hsg
    simp only [consTxt, List.mem_singleton] at hsg
    subst hsg
    exact ht
  | cons sg0 r =>
    cases sg0 with
    | txt u =>
      intro sg hsg
      simp only [consTxt] at hsg
      rcases List.mem_cons.1 hsg with rfl | hsg
      · exact cleanTxt_append ht (hs (.txt u) (by simp))
      · exact hs sg (by simp [hsg])
    | tg u =>
      intro sg hsg
      simp only [consTxt] at hsg
      rcases List.mem_cons.1 hsg with rfl | hsg
      · exact ht
      · exact hs sg hsg

theorem goodSegs_cons {sg : Seg} {segs : List Seg} (h1 : GoodSeg sg)
    (h2 : GoodSegs segs) : GoodSegs (sg :: segs) := by
  intro x hx
  rcases List.mem_cons.1 hx with rfl | hx
  · exact h1
  · exact h2 x hx

theorem noAdjTxt_consTxt {t : List Char} {segs : List Seg}
    (h : noAdjTxt segs = true) : noAdjTxt (consTxt t segs) = true := by
  cases segs with
  | nil => rfl
  | cons sg0 r =>
    cases sg0 with
    | txt u => simpa [consTxt, noAdjTxt, isTxt] using h
    | tg u => simpa [consTxt, noAdjTxt, isTxt] using h

theorem noAdjTxt_cons_tg {t : List Char} {segs : List Seg}
    (h : noAdjTxt segs = true) : noAdjTxt (.tg t :: segs) = true := by
  simpa [noAdjTxt, isTxt] using h

/-! #### Pass 1 produces well-formed segments -/

theorem natDigitsAux_digits : ∀ (f n : Nat), ∀ c ∈ natDigitsAux f n, ∃ k, k ≤ 9 ∧ c = digitChar k := by
  intro f
  induction f with
  | zero =>
    intro n c hc
    simp [natDigitsAux] at hc
  | succ f ih =>
    intro n c hc
    unfold natDigitsAux at hc
    split at hc
    · rename_i h10
      simp only [List.mem_singleton] at hc
      exact ⟨n, by omega, hc⟩
    · rcases List.mem_append.1 hc with h | h
      · exact ih (n / 10) c h
      · simp only [List.mem_singleton] at h
        exact ⟨n % 10, by omega, h⟩

theorem natDigits_digits (n : Nat) : ∀ c ∈ natDigits n, ∃ k, k ≤ 9 ∧ c = digitChar k :=
  natDigitsAux_digits (n + 1) n

theorem digitChar_ne_gt {k : Nat} (hk : k ≤ 9) : digitChar k ≠ '>' := by
  interval_cases k <;> decide

theorem digitChar_ne_lt {k : Nat} (hk : k ≤ 9) : digitChar k ≠ '<' := by
  interval_cases k <;> decide

theorem goodTag_logfileOpen (h : Nat) : GoodTag (logfileOpen h) := by
  refine ⟨"span class=\"logfile\" style=\"--h:".data ++ natDigits h ++ ['"'], ?_, by simp, ?_, ?_⟩
  · show logfileOpen h = _
    unfold logfileOpen
    rw [show ("<span class=\"logfile\" style=\"--h:".data) =
      '<' :: "span class=\"logfile\" style=\"--h:".data from rfl]
    simp
  · intro hmem
    rcases List.mem_append.1 hmem with hm | hm
    · rcases List.mem_append.1 hm with hm2 | hm2
      · exact absurd hm2 (by decide)
      · obtain ⟨k, hk, hek⟩ := natDigits_digits h _ hm2
        exact digitChar_ne_gt hk hek.symm
    · exact absurd hm (by decide)
  · intro hmem
    rcases List.mem_append.1 hmem with hm | hm
    · rcases List.mem_append.1 hm with hm2 | hm2
      · exact absurd hm2 (by decide)
      · obtain ⟨k, hk, hek⟩ := natDigits_digits h _ hm2
        exact digitChar_ne_lt hk hek.symm
    · exact absurd hm (by decide)

theorem goodTag_closeSpan : GoodTag closeSpan := by
  refine ⟨"/span".data, by decide, by decide, by decide, by decide⟩

/-- Tag shapes pass 1 can emit. -/
def Pass1Tag : Seg → Prop
  | .txt _ => True
  | .tg t => (∃ h, t = logfileOpen h) ∨ t = closeSpan

def Pass1Tags (segs : List Seg) : Prop := ∀ sg ∈ segs, Pass1Tag sg

theorem pass1Tags_consTxt {t : List Char} {segs : List Seg}
    (hs : Pass1Tags segs) : Pass1Tags (consTxt t segs) := by
  cases segs with
  | nil =>
    intro sg hsg
    simp only [consTxt, List.mem_singleton] at hsg
    subst hsg
    trivial
  | cons sg0 r =>
    cases sg0 with
    | txt u =>
      intro sg hsg
      simp only [consTxt] at hsg
      rcases List.mem_cons.1 hsg with rfl | hsg
      · trivial
      · exact hs sg (by simp [hsg])
    | tg u =>
      intro sg hsg
      simp only [consTxt] at hsg
      rcases List.mem_cons.1 hsg with rfl | hsg
      · trivial
      · exact hs sg hsg

theorem pass1Tags_cons {sg : Seg} {segs : List Seg} (h1 : Pass1Tag sg)
    (h2 : Pass1Tags segs) : Pass1Tags (sg :: segs) := by
  intro x hx
  rcases List.mem_cons.1 hx with rfl | hx
  · exact h1
  · exact h2 x hx

theorem guardLogfile_no_lt : ∀ (m : List Char), '<' ∉ m → guardLogfile m = false
  | [], _ => rfl
  | c :: rest, h => by
    have hc : c ≠ '<' := fun hh => h (hh ▸ List.mem_cons_self c rest)
    have hns : startsWithLit "<span".data (c :: rest) = false := by
      rw [show "<span".data = '<' :: "span".data from rfl, startsWithLit]
      have hdec : decide ('<' = c) = false := decide_eq_false fun hh => hc hh.symm
      rw [hdec]
      rfl
    have hal : afterLit "<span".data (c :: rest) = none := by
      unfold afterLit
      rw [hns]
      rfl
    unfold guardLogfile
    rw [hal]
    simp only [Bool.false_or]
    exact guardLogfile_no_lt rest fun hh => h (List.mem_cons_of_mem c hh)

/-- Pass 1 on a clean line: the output is a well-formed segment list —
`logfile` spans around the matched `*.py` tokens — whose text content is
exactly the input. -/
theorem wrapPyF_segs : ∀ (n : Nat) (l : List Char), n ≥ l.length → CleanTxt l →
    ∃ segs : List Seg,
      wrapPyF n l = flatS segs ∧ GoodSegs segs ∧ noAdjTxt segs = true ∧
      Pass1Tags segs ∧ contentS segs = l := by
  intro n
  induction n with
  | zero =>
    intro l hn _
    have hl : l = [] := List.eq_nil_of_length_eq_zero (by omega)
    subst hl
    exact ⟨[], rfl, fun sg hsg => absurd hsg (by simp), rfl, fun sg hsg => absurd hsg (by simp), rfl⟩
  | succ n' ih =>
    intro l hn hcl
    cases l with
    | nil =>
      exact ⟨[], rfl, fun sg hsg => absurd hsg (by simp), rfl,
        fun sg hsg => absurd hsg (by simp), rfl⟩
    | cons c rest =>
      have hn' : n' ≥ rest.length := by simp at hn; omega
      have hrest_cl : CleanTxt rest :=
        ⟨fun hh => hcl.1 (List.mem_cons_of_mem c hh), fun hh => hcl.2 (List.mem_cons_of_mem c hh)⟩
      have hc_cl : c ≠ '<' ∧ c ≠ '>' :=
        ⟨fun hh => hcl.1 (hh ▸ List.mem_cons_self c rest),
         fun hh => hcl.2 (hh ▸ List.mem_cons_self c rest)⟩
      have hdrop_cl : CleanTxt (rest.dropWhile isWordChar) :=
        ⟨fun hh => hrest_cl.1 ((List.dropWhile_sublist _).subset hh),
         fun hh => hrest_cl.2 ((List.dropWhile_sublist _).subset hh)⟩
      have htake_cl : CleanTxt (rest.takeWhile isWordChar) :=
        ⟨fun hh => hrest_cl.1 ((List.takeWhile_sublist _).subset hh),
         fun hh => hrest_cl.2 ((List.takeWhile_sublist _).subset hh)⟩
      have hrun_cl : CleanTxt (c :: rest.takeWhile isWordChar) :=
        ⟨fun hh => by
          rcases List.mem_cons.1 hh with rfl | hh
          · exact hc_cl.1 rfl
          · exact htake_cl.1 hh,
         fun hh => by
          rcases List.mem_cons.1 hh with rfl | hh
          · exact hc_cl.2 rfl
          · exact htake_cl.2 hh⟩
      have hsplit : rest.takeWhile isWordChar ++ rest.dropWhile isWordChar = rest :=
        List.takeWhile_append_dropWhile isWordChar rest
      have hd := length_dropWhile_le' isWordChar rest
      simp only [wrapPyF]
      by_cases hw : isWordChar c
      · simp only [if_pos hw]
        split
        · rename_i rest'' heq
          have h3 : rest''.length + 3 ≤ rest.length := by
            rw [heq] at hd
            simpa using hd
          have hrest''_cl : CleanTxt rest'' := by
            refine ⟨fun hh => hdrop_cl.1 ?_, fun hh => hdrop_cl.2 ?_⟩ <;>
              · rw [heq]
                simp [hh]
          have hm_cl : CleanTxt (c :: rest.takeWhile isWordChar ++ ".py".data) :=
            cleanTxt_append hrun_cl ⟨by decide, by decide⟩
          split
          · -- boundary holds: the guard is dead, so only the else branch is live
            split
            · rename_i hguard
              rw [guardLogfile_no_lt _ hm_cl.1] at hguard
              exact absurd hguard (by simp)
            · obtain ⟨segs, he, hg, hna, hp1, hco⟩ := ih rest'' (by omega) hrest''_cl
              refine ⟨.tg (logfileOpen (hueFromList (c :: rest.takeWhile isWordChar ++ ".py".data))) ::
                .txt (c :: rest.takeWhile isWordChar ++ ".py".data) :: .tg closeSpan :: segs,
                ?_, ?_, ?_, ?_, ?_⟩
              · rw [he]
                simp [flatS, List.append_assoc]
              · exact goodSegs_cons (goodTag_logfileOpen _)
                  (goodSegs_cons hm_cl (goodSegs_cons goodTag_closeSpan hg))
              · simpa [noAdjTxt, isTxt] using hna
              · exact pass1Tags_cons (Or.inl ⟨_, rfl⟩)
                  (pass1Tags_cons trivial (pass1Tags_cons (Or.inr rfl) hp1))
              · show (c :: rest.takeWhile isWordChar ++ ".py".data) ++ contentS segs = c :: rest
                rw [hco]
                simp only [List.cons_append, List.append_assoc, List.nil_append]
                rw [← heq, hsplit]
          · obtain ⟨segs, he, hg, hna, hp1, hco⟩ := ih (rest.dropWhile isWordChar) (by omega) hdrop_cl
            refine ⟨consTxt (c :: rest.takeWhile isWordChar) segs, ?_, ?_, ?_, ?_, ?_⟩
            · rw [he, flatS_consTxt]
            · exact goodSegs_consTxt hrun_cl hg
            · exact noAdjTxt_consTxt hna
            · exact pass1Tags_consTxt hp1
            · rw [contentS_consTxt, hco]
              simp [hsplit]
        · obtain ⟨segs, he, hg, hna, hp1, hco⟩ := ih (rest.dropWhile isWordChar) (by omega) hdrop_cl
          refine ⟨consTxt (c :: rest.takeWhile isWordChar) segs, ?_, ?_, ?_, ?_, ?_⟩
          · rw [he, flatS_consTxt]
          · exact goodSegs_consTxt hrun_cl hg
          · exact noAdjTxt_consTxt hna
          · exact pass1Tags_consTxt hp1
          · rw [contentS_consTxt, hco]
            simp [hsplit]
      · simp only [if_neg hw]
        obtain ⟨segs, he, hg, hna, hp1, hco⟩ := ih rest (by omega) hrest_cl
        refine ⟨consTxt [c] segs, ?_, ?_, ?_, ?_, ?_⟩
        · rw [he, flatS_consTxt]
          simp
        · exact goodSegs_consTxt
            ⟨fun hh => hc_cl.1 (List.mem_singleton.1 hh).symm,
             fun hh => hc_cl.2 (List.mem_singleton.1 hh).symm⟩ hg
        · exact noAdjTxt_consTxt hna
        · exact pass1Tags_consTxt hp1
        · rw [contentS_consTxt, hco]
          simp

/-! #### Pass 2: no level keyword matches inside the pass-1 tags -/

theorem lowerChar_upperChar (c : Char) : lowerChar (upperChar c) = lowerChar c := by
  by_cases h1 : c = 'a'
  · subst h1
    decide
  ·
    by_cases h2 : c = 'b'
    · subst h2
      decide
    ·
      by_cases h3 : c = 'c'
      · subst h3
        decide
      ·
        by_cases h4 : c = 'd'
        · subst h4
          decide
        ·
          by_cases h5 : c = 'e'
          · subst h5
            decide
          ·
            by_cases h6 : c = 'f'
            · subst h6
              decide
            ·
              by_cases h7 : c = 'g'
              · subst h7
                decide
              ·
                by_cases h8 : c = 'h'
                · subst h8
                  decide
                ·
                  by_cases h9 : c = 'i'
                  · subst h9
                    decide
                  ·
                    by_cases h10 : c = 'j'
                    · subst h10
                      decide
                    ·
                      by_cases h11 : c = 'k'
                      · subst h11
                        decide
                      ·
                        by_cases h12 : c = 'l'
                        · subst h12
                          decide
                        ·
                          by_cases h13 : c = 'm'
                          · subst h13
                            decide
                          ·
                            by_cases h14 : c = 'n'
                            · subst h14
                              decide
                            ·
                              by_cases h15 : c = 'o'
                              · subst h15
                                decide
                              ·
                                by_cases h16 : c = 'p'
                                · subst h16
                                  decide
                                ·
                                  by_cases h17 : c = 'q'
                                  · subst h17
                                    decide
                                  ·
                                    by_cases h18 : c = 'r'
                                    · subst h18
                                      decide
                                    ·
                                      by_cases h19 : c = 's'
                                      · subst h19
                                        decide
                                      ·
                                        by_cases h20 : c = 't'
                                        · subst h20
                                          decide
                                        ·
                                          by_cases h21 : c = 'u'
                                          · subst h21
                                            decide
                                          ·
                                            by_cases h22 : c = 'v'
                                            · subst h22
                                              decide
                                            ·
                                              by_cases h23 : c = 'w'
                                              · subst h23
                                                decide
                                              ·
                                                by_cases h24 : c = 'x'
                                                · subst h24
                                                  decide
                                                ·
                                                  by_cases h25 : c = 'y'
                                                  · subst h25
                                                    decide
                                                  ·
                                                    by_cases h26 : c = 'z'
                                                    · subst h26
                                                      decide
                                                    ·
                                                      have hid : upperChar c = c := by
                                                        unfold upperChar
                                                        rw [if_neg h1, if_neg h2, if_neg h3, if_neg h4, if_neg h5, if_neg h6, if_neg h7, if_neg h8, if_neg h9, if_neg h10, if_neg h11, if_neg h12, if_neg h13, if_neg h14, if_neg h15, if_neg h16, if_neg h17, if_neg h18, if_neg h19, if_neg h20, if_neg h21, if_neg h22, if_neg h23, if_neg h24, if_neg h25, if_neg h26]
                                                      rw [hid]

theorem upperChar_eq_lt {c : Char} (h : upperChar c = '<') : c = '<' := by
  by_cases h1 : c = 'a'
  · subst h1
    exact absurd h (by decide)
  ·
    by_cases h2 : c = 'b'
    · subst h2
      exact absurd h (by decide)
    ·
      by_cases h3 : c = 'c'
      · subst h3
        exact absurd h (by decide)
      ·
        by_cases h4 : c = 'd'
        · subst h4
          exact absurd h (by decide)
        ·
          by_cases h5 : c = 'e'
          · subst h5
            exact absurd h (by decide)
          ·
            by_cases h6 : c = 'f'
            · subst h6
              exact absurd h (by decide)
            ·
              by_cases h7 : c = 'g'
              · subst h7
                exact absurd h (by decide)
              ·
                by_cases h8 : c = 'h'
                · subst h8
                  exact absurd h (by decide)
                ·
                  by_cases h9 : c = 'i'
                  · subst h9
                    exact absurd h (by decide)
                  ·
                    by_cases h10 : c = 'j'
                    · subst h10
                      exact absurd h (by decide)
                    ·
                      by_cases h11 : c = 'k'
                      · subst h11
                        exact absurd h (by decide)
                      ·
                        by_cases h12 : c = 'l'
                        · subst h12
                          exact absurd h (by decide)
                        ·
                          by_cases h13 : c = 'm'
                          · subst h13
                            exact absurd h (by decide)
                          ·
                            by_cases h14 : c = 'n'
                            · subst h14
                              exact absurd h (by decide)
                            ·
                              by_cases h15 : c = 'o'
                              · subst h15
                                exact absurd h (by decide)
                              ·
                                by_cases h16 : c = 'p'
                                · subst h16
                                  exact absurd h (by decide)
                                ·
                                  by_cases h17 : c = 'q'
                                  · subst h17
                                    exact absurd h (by decide)
                                  ·
                                    by_cases h18 : c = 'r'
                                    · subst h18
                                      exact absurd h (by decide)
                                    ·
                                      by_cases h19 : c = 's'
                                      · subst h19
                                        exact absurd h (by decide)
                                      ·
                                        by_cases h20 : c = 't'
                                        · subst h20
                                          exact absurd h (by decide)
                                        ·
                                          by_cases h21 : c = 'u'
                                          · subst h21
                                            exact absurd h (by decide)
                                          ·
                                            by_cases h22 : c = 'v'
                                            · subst h22
                                              exact absurd h (by decide)
                                            ·
                                              by_cases h23 : c = 'w'
                                              · subst h23
                                                exact absurd h (by decide)
                                              ·
                                                by_cases h24 : c = 'x'
                                                · subst h24
                                                  exact absurd h (by decide)
                                                ·
                                                  by_cases h25 : c = 'y'
                                                  · subst h25
                                                    exact absurd h (by decide)
                                                  ·
                                                    by_cases h26 : c = 'z'
                                                    · subst h26
                                                      exact absurd h (by decide)
                                                    ·
                                                      have hid : upperChar c = c := by
                                                        unfold upperChar
                                                        rw [if_neg h1, if_neg h2, if_neg h3, if_neg h4, if_neg h5, if_neg h6, if_neg h7, if_neg h8, if_neg h9, if_neg h10, if_neg h11, if_neg h12, if_neg h13, if_neg h14, if_neg h15, if_neg h16, if_neg h17, if_neg h18, if_neg h19, if_neg h20, if_neg h21, if_neg h22, if_neg h23, if_neg h24, if_neg h25, if_neg h26]
                                                      rw [hid] at h
                                                      exact h

theorem upperChar_eq_gt {c : Char} (h : upperChar c = '>') : c = '>' := by
  by_cases h1 : c = 'a'
  · subst h1
    exact absurd h (by decide)
  ·
    by_cases h2 : c = 'b'
    · subst h2
      exact absurd h (by decide)
    ·
      by_cases h3 : c = 'c'
      · subst h3
        exact absurd h (by decide)
      ·
        by_cases h4 : c = 'd'
        · subst h4
          exact absurd h (by decide)
        ·
          by_cases h5 : c = 'e'
          · subst h5
            exact absurd h (by decide)
          ·
            by_cases h6 : c = 'f'
            · subst h6
              exact absurd h (by decide)
            ·
              by_cases h7 : c = 'g'
              · subst h7
                exact absurd h (by decide)
              ·
                by_cases h8 : c = 'h'
                · subst h8
                  exact absurd h (by decide)
                ·
                  by_cases h9 : c = 'i'
                  · subst h9
                    exact absurd h (by decide)
                  ·
                    by_cases h10 : c = 'j'
                    · subst h10
                      exact absurd h (by decide)
                    ·
                      by_cases h11 : c = 'k'
                      · subst h11
                        exact absurd h (by decide)
                      ·
                        by_cases h12 : c = 'l'
                        · subst h12
                          exact absurd h (by decide)
                        ·
                          by_cases h13 : c = 'm'
                          · subst h13
                            exact absurd h (by decide)
                          ·
                            by_cases h14 : c = 'n'
                            · subst h14
                              exact absurd h (by decide)
                            ·
                              by_cases h15 : c = 'o'
                              · subst h15
                                exact absurd h (by decide)
                              ·
                                by_cases h16 : c = 'p'
                                · subst h16
                                  exact absurd h (by decide)
                                ·
                                  by_cases h17 : c = 'q'
                                  · subst h17
                                    exact absurd h (by decide)
                                  ·
                                    by_cases h18 : c = 'r'
                                    · subst h18
                                      exact absurd h (by decide)
                                    ·
                                      by_cases h19 : c = 's'
                                      · subst h19
                                        exact absurd h (by decide)
                                      ·
                                        by_cases h20 : c = 't'
                                        · subst h20
                                          exact absurd h (by decide)
                                        ·
                                          by_cases h21 : c = 'u'
                                          · subst h21
                                            exact absurd h (by decide)
                                          ·
                                            by_cases h22 : c = 'v'
                                            · subst h22
                                              exact absurd h (by decide)
                                            ·
                                              by_cases h23 : c = 'w'
                                              · subst h23
                                                exact absurd h (by decide)
                                              ·
                                                by_cases h24 : c = 'x'
                                                · subst h24
                                                  exact absurd h (by decide)
                                                ·
                                                  by_cases h25 : c = 'y'
                                                  · subst h25
                                                    exact absurd h (by decide)
                                                  ·
                                                    by_cases h26 : c = 'z'
                                                    · subst h26
                                                      exact absurd h (by decide)
                                                    ·
                                                      have hid : upperChar c = c := by
                                                        unfold upperChar
                                                        rw [if_neg h1, if_neg h2, if_neg h3, if_neg h4, if_neg h5, if_neg h6, if_neg h7, if_neg h8, if_neg h9, if_neg h10, if_neg h11, if_neg h12, if_neg h13, if_neg h14, if_neg h15, if_neg h16, if_neg h17, if_neg h18, if_neg h19, if_neg h20, if_neg h21, if_neg h22, if_neg h23, if_neg h24, if_neg h25, if_neg h26]
                                                      rw [hid] at h
                                                      exact h

theorem cleanTxt_map_upper {m : List Char} (h : CleanTxt m) :
    CleanTxt (m.map upperChar) := by
  constructor
  · intro hm
    obtain ⟨x, hx, hux⟩ := List.mem_map.1 hm
    exact h.1 (upperChar_eq_lt hux ▸ hx)
  · intro hm
    obtain ⟨x, hx, hux⟩ := List.mem_map.1 hm
    exact h.2 (upperChar_eq_gt hux ▸ hx)

/-- The case-insensitive comparison of `alt` against a string already
fails somewhere inside the window `w`. -/
def ciFailsIn : List Char → List Char → Bool
  | [], _ => false
  | _ :: _, [] => false
  | a :: as, b :: bs => !ciEq a b || ciFailsIn as bs

theorem ciStartsWith_false_of_failsIn : ∀ (alt w rest : List Char),
    ciFailsIn alt w = true → ciStartsWith alt (w ++ rest) = false
  | [], w, rest, h => by simp [ciFailsIn] at h
  | _ :: _, [], rest, h => by simp [ciFailsIn] at h
  | a :: as, b :: bs, rest, h => by
    show (ciEq a b && ciStartsWith as (bs ++ rest)) = false
    rcases Bool.or_eq_true _ _ ▸ h with h1 | h1
    · simp only [Bool.not_eq_true'] at h1
      rw [h1, Bool.false_and]
    · rw [ciStartsWith_false_of_failsIn as bs rest h1, Bool.and_false]

theorem findAlt_none_of_failsIn (w rest : List Char)
    (h : (levelAlts.all fun alt => ciFailsIn alt w) = true) :
    findAlt (w ++ rest) = none := by
  unfold findAlt
  rw [List.find?_eq_none]
  intro alt halt
  rw [ciStartsWith_false_of_failsIn alt w rest (by simpa using List.all_eq_true.1 h alt halt)]
  simp

/-- State of the `prevW` flag after scanning a chunk. -/
def prevT (w : List Char) (p : Bool) : Bool :=
  match w.getLast? with
  | some c => isWordChar c
  | none => p

theorem prevT_cons (c : Char) (w : List Char) (p : Bool) :
    prevT (c :: w) p = prevT w (isWordChar c) := by
  cases w with
  | nil => rfl
  | cons d w' =>
    unfold prevT
    rw [List.getLast?_cons_cons]
    cases hg : (d :: w').getLast? with
    | none => simp at hg
    | some x => rfl

/-- A character run where no alternative matches at any position is
copied verbatim by the level scanner. -/
theorem levelF_copy : ∀ (w rest : List Char) (n : Nat) (prevW : Bool),
    n ≥ w.length + rest.length →
    (∀ i, i < w.length → findAlt (w.drop i ++ rest) = none) →
    levelF n prevW (w ++ rest) = w ++ levelF (n - w.length) (prevT w prevW) rest
  | [], rest, n, prevW, _, _ => rfl
  | c :: w', rest, n, prevW, hn, hf => by
    obtain ⟨n', rfl⟩ : ∃ k, n = k + 1 := ⟨n - 1, by simp at hn; omega⟩
    show levelF (n' + 1) prevW (c :: (w' ++ rest)) = _
    have hstep : levelF (n' + 1) prevW (c :: (w' ++ rest)) =
        c :: levelF n' (isWordChar c) (w' ++ rest) := by
      simp only [levelF]
      by_cases hp : !prevW
      · simp only [if_pos hp]
        have h0 := hf 0 (by simp)
        simp only [List.drop_zero] at h0
        rw [show (c :: w') ++ rest = c :: (w' ++ rest) from rfl] at h0
        rw [h0]
      · simp only [if_neg hp]
    have hrec := levelF_copy w' rest n' (isWordChar c) (by simp at hn; omega)
      (fun i hi => by
        have := hf (i + 1) (by simpa using Nat.succ_lt_succ hi)
        simpa using this)
    rw [hstep, hrec, prevT_cons]
    have hfl : n' - w'.length = n' + 1 - (c :: w').length := by
      simp only [List.length_cons]
      omega
    rw [hfl]
    rfl

theorem alts_fail_logfilePre :
    ∀ i, i < ("<span class=\"logfile\" style=\"--h:".data).length →
      (levelAlts.all fun alt =>
        ciFailsIn alt (("<span class=\"logfile\" style=\"--h:".data).drop i)) = true := by
  decide

theorem alts_fail_digit {k : Nat} (hk : k ≤ 9) :
    (levelAlts.all fun alt => ciFailsIn alt [digitChar k]) = true := by
  interval_cases k <;> decide

theorem alts_fail_quote :
    (levelAlts.all fun alt => ciFailsIn alt ['"']) = true := by decide

theorem alts_fail_gtc :
    (levelAlts.all fun alt => ciFailsIn alt ['>']) = true := by decide

theorem alts_fail_closeSpan :
    ∀ i, i < closeSpan.length →
      (levelAlts.all fun alt => ciFailsIn alt (closeSpan.drop i)) = true := by
  decide

theorem findAlt_none_in_logfileOpen (h : Nat) (rest : List Char) :
    ∀ i, i < (logfileOpen h).length → findAlt ((logfileOpen h).drop i ++ rest) = none := by
  intro i hi
  set P := "<span class=\"logfile\" style=\"--h:".data with hP
  set D := natDigits h with hD
  have hw : logfileOpen h = P ++ (D ++ ['"', '>']) := by
    simp [logfileOpen, hP, hD]
  rw [hw] at hi ⊢
  rcases Nat.lt_or_ge i P.length with hiP | hiP
  · rw [List.drop_append_of_le_length (Nat.le_of_lt hiP), List.append_assoc]
    exact findAlt_none_of_failsIn _ _ (alts_fail_logfilePre i hiP)
  · obtain ⟨j, rfl⟩ : ∃ j, i = P.length + j := ⟨i - P.length, by omega⟩
    rw [List.drop_append j]
    rcases Nat.lt_or_ge j D.length with hjD | hjD
    · rw [List.drop_append_of_le_length (Nat.le_of_lt hjD), List.drop_eq_getElem_cons hjD]
      obtain ⟨k, hk, hek⟩ := natDigits_digits h _ (List.getElem_mem hjD)
      rw [hek]
      simp only [List.cons_append, List.append_assoc]
      exact findAlt_none_of_failsIn [digitChar k] _ (alts_fail_digit hk)
    · obtain ⟨j2, rfl⟩ : ∃ j2, j = D.length + j2 := ⟨j - D.length, by omega⟩
      rw [List.drop_append j2]
      have hj2 : j2 < 2 := by
        simp only [List.length_append, List.length_cons] at hi
        simp at hi
        omega
      interval_cases j2
      · exact findAlt_none_of_failsIn ['"'] ('>' :: rest) alts_fail_quote
      · exact findAlt_none_of_failsIn ['>'] rest alts_fail_gtc

theorem findAlt_none_in_closeSpan (rest : List Char) :
    ∀ i, i < closeSpan.length → findAlt (closeSpan.drop i ++ rest) = none := by
  intro i hi
  have hsplit : closeSpan.drop i ++ rest = closeSpan.drop i ++ rest := rfl
  exact findAlt_none_of_failsIn _ _ (alts_fail_closeSpan i hi)

theorem levelF_skip_tag (w rest : List Char) (n : Nat) (prevW : Bool)
    (hn : n ≥ w.length + rest.length)
    (hlast : w.getLast? = some '>')
    (hnone : ∀ i, i < w.length → findAlt (w.drop i ++ rest) = none) :
    levelF n prevW (w ++ rest) = w ++ levelF (n - w.length) false rest := by
  rw [levelF_copy w rest n prevW hn hnone]
  have hp : prevT w prevW = false := by
    unfold prevT
    rw [hlast]
    rfl
  rw [hp]

theorem getLast_logfileOpen (h : Nat) : (logfileOpen h).getLast? = some '>' := by
  have : logfileOpen h =
      ("<span class=\"logfile\" style=\"--h:".data ++ natDigits h ++ ['"']) ++ ['>'] := by
    simp [logfileOpen]
  rw [this, List.getLast?_concat]

theorem levelF_skip_logfileOpen (h : Nat) (rest : List Char) (n : Nat) (prevW : Bool)
    (hn : n ≥ (logfileOpen h).length + rest.length) :
    levelF n prevW (logfileOpen h ++ rest) =
      logfileOpen h ++ levelF (n - (logfileOpen h).length) false rest :=
  levelF_skip_tag _ _ _ _ hn (getLast_logfileOpen h) (findAlt_none_in_logfileOpen h rest)

theorem levelF_skip_closeSpan (rest : List Char) (n : Nat) (prevW : Bool)
    (hn : n ≥ closeSpan.length + rest.length) :
    levelF n prevW (closeSpan ++ rest) =
      closeSpan ++ levelF (n - closeSpan.length) false rest :=
  levelF_skip_tag _ _ _ _ hn (by decide) (findAlt_none_in_closeSpan rest)

/-- The continuation after a text piece: end of input or a tag start. -/
def BHead (rest : List Char) : Prop := rest = [] ∨ ∃ r', rest = '<' :: r'

theorem levelAlts_chars : ∀ alt ∈ levelAlts, ∀ c ∈ alt, ciEq c '<' = false := by decide

theorem ciStartsWith_overrun : ∀ (alt u v : List Char),
    (∀ c ∈ alt, ciEq c '<' = false) → BHead v →
    alt.length > u.length → ciStartsWith alt (u ++ v) = false
  | [], _, _, _, _, hl => by simp at hl
  | a :: as, [], v, hc, hv, _ => by
    rcases hv with rfl | ⟨r', rfl⟩
    · rfl
    · show (ciEq a '<' && ciStartsWith as r') = false
      rw [hc a (by simp), Bool.false_and]
  | a :: as, b :: u', v, hc, hv, hl => by
    show (ciEq a b && ciStartsWith as (u' ++ v)) = false
    rw [ciStartsWith_overrun as u' v (fun c hcc => hc c (by simp [hcc])) hv
      (by simp at hl ⊢; omega), Bool.and_false]

theorem levelClassOf_clean (key : List Char) :
    '>' ∉ levelClassOf key ∧ '<' ∉ levelClassOf key := by
  unfold levelClassOf
  split_ifs <;> exact ⟨by decide, by decide⟩

theorem goodTag_lvlOpen (cls : List Char) (h1 : '>' ∉ cls) (h2 : '<' ∉ cls) :
    GoodTag (lvlOpen cls) := by
  refine ⟨"span class=\"loglvl ".data ++ cls ++ ['"'], ?_, by simp, ?_, ?_⟩
  · show lvlOpen cls = _
    unfold lvlOpen
    rw [show "<span class=\"loglvl ".data = '<' :: "span class=\"loglvl ".data from rfl]
    simp
  · intro hmem
    rcases List.mem_append.1 hmem with hm | hm
    · rcases List.mem_append.1 hm with hm2 | hm2
      · exact absurd hm2 (by decide)
      · exact h1 hm2
    · exact absurd hm (by decide)
  · intro hmem
    rcases List.mem_append.1 hmem with hm | hm
    · rcases List.mem_append.1 hm with hm2 | hm2
      · exact absurd hm2 (by decide)
      · exact h2 hm2
    · exact absurd hm (by decide)

theorem lowerL_map_upper (m : List Char) : lowerL (m.map upperChar) = lowerL m := by
  unfold lowerL
  rw [List.map_map]
  exact List.map_congr_left fun a _ => lowerChar_upperChar a

/-- The level pass on a clean text piece followed by a tag (or nothing):
the matches are confined to the text, and the output is a segment list
whose content is the text up to upper-casing of the matched keywords. -/
theorem levelF_txt : ∀ (n : Nat) (t rest : List Char) (prevW : Bool),
    CleanTxt t → BHead rest → n ≥ t.length + rest.length →
    ∃ (out : List Seg) (pl : Bool),
      levelF n prevW (t ++ rest) = flatS out ++ levelF (n - t.length) pl rest ∧
      GoodSegs out ∧ lowerL (contentS out) = lowerL t := by
  intro n
  induction n with
  | zero =>
    intro t rest prevW hcl hb hn
    have ht : t = [] := List.eq_nil_of_length_eq_zero (by omega)
    subst ht
    exact ⟨[], prevW, rfl, fun sg hsg => absurd hsg (by simp), rfl⟩
  | succ n' ih =>
    intro t rest prevW hcl hb hn
    cases t with
    | nil => exact ⟨[], prevW, rfl, fun sg hsg => absurd hsg (by simp), rfl⟩
    | cons c t' =>
      have hc_cl : c ≠ '<' ∧ c ≠ '>' :=
        ⟨fun hh => hcl.1 (hh ▸ List.mem_cons_self c t'),
         fun hh => hcl.2 (hh ▸ List.mem_cons_self c t')⟩
      have ht'_cl : CleanTxt t' :=
        ⟨fun hh => hcl.1 (List.mem_cons_of_mem c hh),
         fun hh => hcl.2 (List.mem_cons_of_mem c hh)⟩
      have hn' : n' ≥ t'.length + rest.length := by simp at hn; omega
      -- the unmatched-step continuation, shared by two branches
      have hstep : ∀ h0 : levelF (n' + 1) prevW ((c :: t') ++ rest) =
            c :: levelF n' (isWordChar c) (t' ++ rest),
          ∃ (out : List Seg) (pl : Bool),
            levelF (n' + 1) prevW ((c :: t') ++ rest) =
              flatS out ++ levelF (n' + 1 - (c :: t').length) pl rest ∧
            GoodSegs out ∧ lowerL (contentS out) = lowerL (c :: t') := by
        intro h0
        obtain ⟨out', pl', he', hg', hlow'⟩ := ih t' rest (isWordChar c) ht'_cl hb hn'
        refine ⟨consTxt [c] out', pl', ?_, ?_, ?_⟩
        · rw [h0, he', flatS_consTxt]
          have harith : n' - t'.length = n' + 1 - (c :: t').length := by
            simp only [List.length_cons]
            omega
          rw [harith]
          rfl
        · exact goodSegs_consTxt
            ⟨fun hh => hc_cl.1 (List.mem_singleton.1 hh).symm,
             fun hh => hc_cl.2 (List.mem_singleton.1 hh).symm⟩ hg'
        · rw [contentS_consTxt]
          unfold lowerL at hlow' ⊢
          simp only [List.map_append, List.map_cons, List.map_nil, List.cons_append,
            List.nil_append, hlow']
      by_cases hp : prevW
      · refine hstep ?_
        show levelF (n' + 1) prevW (c :: (t' ++ rest)) = _
        simp only [levelF, hp]
        rfl
      · have hpf : prevW = false := by simpa using hp
        subst hpf
        cases hfind : findAlt (c :: (t' ++ rest)) with
        | none =>
          refine hstep ?_
          show levelF (n' + 1) false (c :: (t' ++ rest)) = _
          simp only [levelF, Bool.not_false, if_true, hfind]
        | some alt =>
          have halt_mem : alt ∈ levelAlts := findAlt_mem hfind
          have hpred := List.find?_some hfind
          have hci : ciStartsWith alt (c :: (t' ++ rest)) = true := by
            rcases Bool.and_eq_true _ _ ▸ hpred with ⟨h1, _⟩
            exact h1
          have hlen : alt.length ≤ (c :: t').length := by
            by_contra hgt
            rw [show c :: (t' ++ rest) = (c :: t') ++ rest from rfl] at hci
            rw [ciStartsWith_overrun alt (c :: t') rest
              (levelAlts_chars alt halt_mem) hb (by omega)] at hci
            exact absurd hci (by simp)
          have halt1 : 1 ≤ alt.length := levelAlts_len alt halt_mem
          have htake : (c :: (t' ++ rest)).take alt.length = (c :: t').take alt.length := by
            rw [show c :: (t' ++ rest) = (c :: t') ++ rest from rfl,
              List.take_append_of_le_length hlen]
          have hdrop : (c :: (t' ++ rest)).drop alt.length = (c :: t').drop alt.length ++ rest := by
            rw [show c :: (t' ++ rest) = (c :: t') ++ rest from rfl,
              List.drop_append_of_le_length hlen]
          have ht2_cl : CleanTxt ((c :: t').drop alt.length) :=
            ⟨fun hh => hcl.1 ((List.drop_sublist _ _).subset hh),
             fun hh => hcl.2 ((List.drop_sublist _ _).subset hh)⟩
          have ht2_len : ((c :: t').drop alt.length).length + rest.length ≤ n' := by
            simp only [List.length_drop, List.length_cons]
            simp only [List.length_cons] at hn
            omega
          obtain ⟨out₂, pl₂, he₂, hg₂, hlow₂⟩ :=
            ih ((c :: t').drop alt.length) rest true ht2_cl hb ht2_len
          have hm_cl : CleanTxt ((c :: t').take alt.length) :=
            ⟨fun hh => hcl.1 ((List.take_sublist _ _).subset hh),
             fun hh => hcl.2 ((List.take_sublist _ _).subset hh)⟩
          refine ⟨.tg (lvlOpen (levelClassOf (((c :: t').take alt.length).map upperChar))) ::
            .txt (((c :: t').take alt.length).map upperChar) :: .tg closeSpan :: out₂, pl₂, ?_, ?_, ?_⟩
          · show levelF (n' + 1) false (c :: (t' ++ rest)) = _
            rw [show levelF (n' + 1) false (c :: (t' ++ rest)) =
                match findAlt (c :: (t' ++ rest)) with
                | some alt =>
                  lvlOpen (levelClassOf (((c :: (t' ++ rest)).take alt.length).map upperChar)) ++
                    ((c :: (t' ++ rest)).take alt.length).map upperChar ++ closeSpan ++
                    levelF n' true ((c :: (t' ++ rest)).drop alt.length)
                | none => c :: levelF n' (isWordChar c) (t' ++ rest) from rfl]
            simp only [hfind]
            rw [htake, hdrop, he₂]
            have hfuel : levelF (n' - ((c :: t').drop alt.length).length) pl₂ rest =
                levelF (n' + 1 - (c :: t').length) pl₂ rest := by
              apply levelF_fuel
              · simp only [List.length_drop] at ht2_len ⊢
                omega
              · simp only [List.length_cons]
                simp only [List.length_cons] at hn
                omega
            rw [hfuel]
            simp [flatS, List.append_assoc]
          · refine goodSegs_cons ?_ (goodSegs_cons ?_ (goodSegs_cons goodTag_closeSpan hg₂))
            · exact goodTag_lvlOpen _ (levelClassOf_clean _).1 (levelClassOf_clean _).2
            · exact cleanTxt_map_upper hm_cl
          · show lowerL ((((c :: t').take alt.length).map upperChar) ++ contentS out₂) = _
            unfold lowerL at hlow₂ ⊢
            rw [List.map_append]
            rw [show List.map lowerChar (((c :: t').take alt.length).map upperChar) =
              lowerL (((c :: t').take alt.length).map upperChar) from rfl, lowerL_map_upper]
            rw [hlow₂]
            unfold lowerL
            rw [← List.map_append, List.take_append_drop]

theorem levelF_nil (n : Nat) (p : Bool) : levelF n p [] = [] := by cases n <;> rfl

theorem flatS_append : ∀ (a b : List Seg), flatS (a ++ b) = flatS a ++ flatS b
  | [], _ => rfl
  | .txt t :: r, b => by simp [flatS, flatS_append r b]
  | .tg t :: r, b => by simp [flatS, flatS_append r b]

theorem contentS_append : ∀ (a b : List Seg), contentS (a ++ b) = contentS a ++ contentS b
  | [], _ => rfl
  | .txt t :: r, b => by simp [contentS, contentS_append r b]
  | .tg t :: r, b => by simp [contentS, contentS_append r b]

/-- Running the level pass over the flattening of a pass-1 segment list
yields a flattened segment list whose content matches the original content
up to ASCII letter case. -/
theorem levelF_flat : ∀ (segs : List Seg) (n : Nat) (prevW : Bool),
    GoodSegs segs → noAdjTxt segs = true → Pass1Tags segs → n ≥ (flatS segs).length →
    ∃ out : List Seg, levelF n prevW (flatS segs) = flatS out ∧ GoodSegs out ∧
      lowerL (contentS out) = lowerL (contentS segs)
  | [], n, prevW, _, _, _, _ =>
    ⟨[], levelF_nil n prevW, fun sg hsg => absurd hsg (by simp), rfl⟩
  | .txt t :: r, n, prevW, hg, ha, hp, hn => by
    have ht : CleanTxt t := hg (.txt t) (by simp)
    have hgr : GoodSegs r := fun sg hs => hg sg (by simp [hs])
    obtain ⟨hhead, har⟩ :
        (!(isTxt (Seg.txt t) && ((r.head?.map isTxt).getD false))) = true ∧
          noAdjTxt r = true := by
      have h := ha
      simp only [noAdjTxt, Bool.and_eq_true] at h
      exact h
    have hpr : Pass1Tags r := fun sg hs => hp sg (by simp [hs])
    have hb : BHead (flatS r) := by
      cases r with
      | nil => exact Or.inl rfl
      | cons sg0 r' =>
        cases sg0 with
        | txt u =>
          exfalso
          have h1 := hhead
          simp [isTxt] at h1
        | tg u =>
          obtain ⟨mid, he, _, _, _⟩ := hgr (.tg u) (by simp)
          exact Or.inr ⟨mid ++ ['>'] ++ flatS r', by simp [flatS, he]⟩
    have hn1 : n ≥ t.length + (flatS r).length := by
      simpa [flatS] using hn
    obtain ⟨out₁, pl, he₁, hg₁, hl₁⟩ := levelF_txt n t (flatS r) prevW ht hb hn1
    obtain ⟨out₂, he₂, hg₂, hl₂⟩ :=
      levelF_flat r (n - t.length) pl hgr har hpr (by omega)
    refine ⟨out₁ ++ out₂, ?_, ?_, ?_⟩
    · show levelF n prevW (t ++ flatS r) = _
      rw [he₁, he₂, flatS_append]
    · intro sg hs
      rcases List.mem_append.1 hs with hs | hs
      exacts [hg₁ sg hs, hg₂ sg hs]
    · rw [contentS_append]
      show lowerL _ = lowerL (t ++ contentS r)
      unfold lowerL at hl₁ hl₂ ⊢
      rw [List.map_append, List.map_append, hl₁, hl₂]
  | .tg u :: r, n, prevW, hg, ha, hp, hn => by
    have hgr : GoodSegs r := fun sg hs => hg sg (by simp [hs])
    have har : noAdjTxt r = true := by
      have h := ha
      simp only [noAdjTxt, Bool.and_eq_true] at h
      exact h.2
    have hpr : Pass1Tags r := fun sg hs => hp sg (by simp [hs])
    have hn1 : n ≥ u.length + (flatS r).length := by
      simpa [flatS] using hn
    have hpt : (∃ h, u = logfileOpen h) ∨ u = closeSpan := hp (.tg u) (by simp)
    have hskip : levelF n prevW (u ++ flatS r) = u ++ levelF (n - u.length) false (flatS r) := by
      rcases hpt with ⟨h, rfl⟩ | rfl
      · exact levelF_skip_logfileOpen h (flatS r) n prevW hn1
      · exact levelF_skip_closeSpan (flatS r) n prevW hn1
    obtain ⟨out₂, he₂, hg₂, hl₂⟩ := levelF_flat r (n - u.length) false hgr har hpr (by omega)
    refine ⟨.tg u :: out₂, ?_, ?_, ?_⟩
    · show levelF n prevW (u ++ flatS r) = _
      rw [hskip, he₂]
      rfl
    · exact goodSegs_cons (hg (.tg u) (by simp)) hg₂
    · exact hl₂

theorem takeWhile_digit_bhead : ∀ (u v : List Char), BHead v →
    (u ++ v).takeWhile isDigitChar = u.takeWhile isDigitChar
  | [], v, hv => by
    rcases hv with rfl | ⟨r', rfl⟩
    · rfl
    · rfl
  | c :: u', v, hv => by
    show List.takeWhile isDigitChar (c :: (u' ++ v)) = _
    rw [List.takeWhile_cons, List.takeWhile_cons]
    cases hc : isDigitChar c
    · rfl
    · rw [takeWhile_digit_bhead u' v hv]

theorem dropWhile_digit_bhead : ∀ (u v : List Char), BHead v →
    (u ++ v).dropWhile isDigitChar = u.dropWhile isDigitChar ++ v
  | [], v, hv => by
    rcases hv with rfl | ⟨r', rfl⟩
    · rfl
    · rfl
  | c :: u', v, hv => by
    show List.dropWhile isDigitChar (c :: (u' ++ v)) = _
    rw [List.dropWhile_cons, List.dropWhile_cons]
    cases hc : isDigitChar c
    · simp only [Bool.false_eq_true, if_false]
      rfl
    · simp only [if_true]
      exact dropWhile_digit_bhead u' v hv

theorem numF_copy : ∀ (w rest : List Char) (n : Nat) (prevW : Bool),
    n ≥ w.length + rest.length →
    (∀ c ∈ w, isDigitChar c = false) →
    numF n prevW (w ++ rest) = w ++ numF (n - w.length) (prevT w prevW) rest
  | [], rest, n, prevW, _, _ => rfl
  | c :: w', rest, n, prevW, hn, hd => by
    obtain ⟨n', rfl⟩ : ∃ k, n = k + 1 := ⟨n - 1, by simp at hn; omega⟩
    show numF (n' + 1) prevW (c :: (w' ++ rest)) = _
    have hc : isDigitChar c = false := hd c (List.mem_cons_self c w')
    have hstep : numF (n' + 1) prevW (c :: (w' ++ rest)) =
        c :: numF n' (isWordChar c) (w' ++ rest) := by
      show (if isDigitChar c && !prevW then _ else c :: numF n' (isWordChar c) (w' ++ rest)) = _
      rw [hc, Bool.false_and, if_neg (by simp)]
    rw [hstep, numF_copy w' rest n' (isWordChar c)
      (by simp at hn; omega) (fun d hdm => hd d (List.mem_cons_of_mem c hdm))]
    rw [prevT_cons]
    have harith : n' - w'.length = n' + 1 - (c :: w').length := by
      simp only [List.length_cons]
      omega
    rw [harith]
    rfl

theorem numF_skip_tag (w rest : List Char) (n : Nat) (prevW : Bool)
    (hn : n ≥ w.length + rest.length)
    (hlast : w.getLast? = some '>')
    (hd : ∀ c ∈ w, isDigitChar c = false) :
    numF n prevW (w ++ rest) = w ++ numF (n - w.length) false rest := by
  rw [numF_copy w rest n prevW hn hd]
  have hp : prevT w prevW = false := by
    unfold prevT
    rw [hlast]
    rfl
  rw [hp]

theorem goodTag_numOpen : GoodTag numOpen :=
  ⟨"span class=\"number\"".data, by decide, by decide, by decide, by decide⟩

theorem goodTag_lineNumOpen : GoodTag lineNumOpen :=
  ⟨"span class=\"line-number\"".data, by decide, by decide, by decide, by decide⟩

/-- The number pass on a clean text piece followed by a tag (or nothing):
digit runs stop at the piece boundary, and the content is preserved
exactly. -/
theorem numF_txt : ∀ (n : Nat) (t rest : List Char) (prevW : Bool),
    CleanTxt t → BHead rest → n ≥ t.length + rest.length →
    ∃ (out : List Seg) (pl : Bool),
      numF n prevW (t ++ rest) = flatS out ++ numF (n - t.length) pl rest ∧
      GoodSegs out ∧ contentS out = t := by
  intro n
  induction n with
  | zero =>
    intro t rest prevW hcl hb hn
    have ht : t = [] := List.eq_nil_of_length_eq_zero (by omega)
    subst ht
    exact ⟨[], prevW, rfl, fun sg hsg => absurd hsg (by simp), rfl⟩
  | succ n' ih =>
    intro t rest prevW hcl hb hn
    cases t with
    | nil => exact ⟨[], prevW, rfl, fun sg hsg => absurd hsg (by simp), rfl⟩
    | cons c t' =>
      have hc_cl : c ≠ '<' ∧ c ≠ '>' :=
        ⟨fun hh => hcl.1 (hh ▸ List.mem_cons_self c t'),
         fun hh => hcl.2 (hh ▸ List.mem_cons_self c t')⟩
      have ht'_cl : CleanTxt t' :=
        ⟨fun hh => hcl.1 (List.mem_cons_of_mem c hh),
         fun hh => hcl.2 (List.mem_cons_of_mem c hh)⟩
      have hn' : n' ≥ t'.length + rest.length := by simp at hn; omega
      have hstep : numF (n' + 1) prevW (c :: (t' ++ rest)) =
          if isDigitChar c && !prevW then
            if boundaryOk ((t' ++ rest).dropWhile isDigitChar) then
              numOpen ++ (c :: (t' ++ rest).takeWhile isDigitChar) ++ closeSpan ++
                numF n' true ((t' ++ rest).dropWhile isDigitChar)
            else (c :: (t' ++ rest).takeWhile isDigitChar) ++
              numF n' true ((t' ++ rest).dropWhile isDigitChar)
          else c :: numF n' (isWordChar c) (t' ++ rest) := rfl
      show ∃ (out : List Seg) (pl : Bool),
        numF (n' + 1) prevW (c :: (t' ++ rest)) =
          flatS out ++ numF (n' + 1 - (c :: t').length) pl rest ∧
        GoodSegs out ∧ contentS out = c :: t'
      cases hdig : (isDigitChar c && !prevW) with
      | false =>
        obtain ⟨out', pl', he', hg', hc'⟩ := ih t' rest (isWordChar c) ht'_cl hb hn'
        refine ⟨consTxt [c] out', pl', ?_, ?_, ?_⟩
        · rw [hstep, hdig, if_neg (by simp), he', flatS_consTxt]
          have harith : n' - t'.length = n' + 1 - (c :: t').length := by
            simp only [List.length_cons]
            omega
          rw [harith]
          rfl
        · exact goodSegs_consTxt
            ⟨fun hh => hc_cl.1 (List.mem_singleton.1 hh).symm,
             fun hh => hc_cl.2 (List.mem_singleton.1 hh).symm⟩ hg'
        · rw [contentS_consTxt, hc']
          rfl
      | true =>
        have htake : (t' ++ rest).takeWhile isDigitChar = t'.takeWhile isDigitChar :=
          takeWhile_digit_bhead t' rest hb
        have hdrop : (t' ++ rest).dropWhile isDigitChar = t'.dropWhile isDigitChar ++ rest :=
          dropWhile_digit_bhead t' rest hb
        have ht2_cl : CleanTxt (t'.dropWhile isDigitChar) :=
          ⟨fun hh => ht'_cl.1 ((List.dropWhile_sublist _).subset hh),
           fun hh => ht'_cl.2 ((List.dropWhile_sublist _).subset hh)⟩
        have ht2_len : (t'.dropWhile isDigitChar).length + rest.length ≤ n' := by
          have := (List.dropWhile_sublist (p := isDigitChar) (l := t')).length_le
          omega
        obtain ⟨out₂, pl₂, he₂, hg₂, hc₂⟩ :=
          ih (t'.dropWhile isDigitChar) rest true ht2_cl hb ht2_len
        have hrun_cl : CleanTxt (c :: t'.takeWhile isDigitChar) := by
          constructor
          · intro hh
            rcases List.mem_cons.1 hh with rfl | hh
            · exact hc_cl.1 rfl
            · exact ht'_cl.1 ((List.takeWhile_sublist _).subset hh)
          · intro hh
            rcases List.mem_cons.1 hh with rfl | hh
            · exact hc_cl.2 rfl
            · exact ht'_cl.2 ((List.takeWhile_sublist _).subset hh)
        have hfuel : numF (n' - (t'.dropWhile isDigitChar).length) pl₂ rest =
            numF (n' + 1 - (c :: t').length) pl₂ rest := by
          apply numF_fuel
          · omega
          · have := (List.dropWhile_sublist (p := isDigitChar) (l := t')).length_le
            simp only [List.length_cons]
            omega
        have hcontent : (c :: t'.takeWhile isDigitChar) ++ t'.dropWhile isDigitChar = c :: t' := by
          rw [List.cons_append, List.takeWhile_append_dropWhile]
        cases hbd : boundaryOk (t'.dropWhile isDigitChar ++ rest) with
        | true =>
          refine ⟨.tg numOpen :: .txt (c :: t'.takeWhile isDigitChar) :: .tg closeSpan :: out₂,
            pl₂, ?_, ?_, ?_⟩
          · rw [hstep, hdig, if_pos rfl, htake, hdrop, if_pos hbd, he₂, hfuel]
            simp [flatS, List.append_assoc]
          · exact goodSegs_cons goodTag_numOpen
              (goodSegs_cons hrun_cl (goodSegs_cons goodTag_closeSpan hg₂))
          · show (c :: t'.takeWhile isDigitChar) ++ contentS out₂ = c :: t'
            rw [hc₂, hcontent]
        | false =>
          refine ⟨consTxt (c :: t'.takeWhile isDigitChar) out₂, pl₂, ?_, ?_, ?_⟩
          · rw [hstep, hdig, if_pos rfl, htake, hdrop, if_neg (by simp [hbd]), he₂, hfuel,
              flatS_consTxt]
            simp [List.append_assoc]
          · exact goodSegs_consTxt hrun_cl hg₂
          · rw [contentS_consTxt, hc₂, hcontent]

/-- Tags containing no digit characters (the number pass copies them). -/
def DigitFreeTags (segs : List Seg) : Prop :=
  ∀ t, Seg.tg t ∈ segs → ∀ c ∈ t, isDigitChar c = false

/-- Running the number pass over the flattening of a segment list with
digit-free tags preserves the content exactly. -/
theorem numF_flat : ∀ (segs : List Seg) (n : Nat) (prevW : Bool),
    GoodSegs segs → noAdjTxt segs = true → DigitFreeTags segs →
    n ≥ (flatS segs).length →
    ∃ out : List Seg, numF n prevW (flatS segs) = flatS out ∧ GoodSegs out ∧
      contentS out = contentS segs
  | [], n, prevW, _, _, _, _ =>
    ⟨[], by cases n <;> rfl, fun sg hsg => absurd hsg (by simp), rfl⟩
  | .txt t :: r, n, prevW, hg, ha, hd, hn => by
    have ht : CleanTxt t := hg (.txt t) (by simp)
    have hgr : GoodSegs r := fun sg hs => hg sg (by simp [hs])
    obtain ⟨hhead, har⟩ :
        (!(isTxt (Seg.txt t) && ((r.head?.map isTxt).getD false))) = true ∧
          noAdjTxt r = true := by
      have h := ha
      simp only [noAdjTxt, Bool.and_eq_true] at h
      exact h
    have hdr : DigitFreeTags r := fun u hu => hd u (by simp [hu])
    have hb : BHead (flatS r) := by
      cases r with
      | nil => exact Or.inl rfl
      | cons sg0 r' =>
        cases sg0 with
        | txt u =>
          exfalso
          simp [isTxt] at hhead
        | tg u =>
          obtain ⟨mid, he, _, _, _⟩ := hgr (.tg u) (by simp)
          exact Or.inr ⟨mid ++ ['>'] ++ flatS r', by simp [flatS, he]⟩
    have hn1 : n ≥ t.length + (flatS r).length := by
      simpa [flatS] using hn
    obtain ⟨out₁, pl, he₁, hg₁, hc₁⟩ := numF_txt n t (flatS r) prevW ht hb hn1
    obtain ⟨out₂, he₂, hg₂, hc₂⟩ :=
      numF_flat r (n - t.length) pl hgr har hdr (by omega)
    refine ⟨out₁ ++ out₂, ?_, ?_, ?_⟩
    · show numF n prevW (t ++ flatS r) = _
      rw [he₁, he₂, flatS_append]
    · intro sg hs
      rcases List.mem_append.1 hs with hs | hs
      exacts [hg₁ sg hs, hg₂ sg hs]
    · rw [contentS_append, hc₁, hc₂]
      rfl
  | .tg u :: r, n, prevW, hg, ha, hd, hn => by
    have hgr : GoodSegs r := fun sg hs => hg sg (by simp [hs])
    have har : noAdjTxt r = true := by
      have h := ha
      simp only [noAdjTxt, Bool.and_eq_true] at h
      exact h.2
    have hdr : DigitFreeTags r := fun w hw => hd w (by simp [hw])
    have hn1 : n ≥ u.length + (flatS r).length := by
      simpa [flatS] using hn
    have hlast : u.getLast? = some '>' := by
      obtain ⟨mid, he, hne, hgt, hlt⟩ := hg (.tg u) (by simp)
      subst he
      have h2 : '<' :: (mid ++ ['>']) = ('<' :: mid) ++ ['>'] := rfl
      rw [h2, List.getLast?_concat]
    have hskip : numF n prevW (u ++ flatS r) = u ++ numF (n - u.length) false (flatS r) :=
      numF_skip_tag u (flatS r) n prevW hn1 hlast (hd u (by simp))
    obtain ⟨out₂, he₂, hg₂, hc₂⟩ := numF_flat r (n - u.length) false hgr har hdr (by omega)
    refine ⟨.tg u :: out₂, ?_, ?_, ?_⟩
    · show numF n prevW (u ++ flatS r) = _
      rw [hskip, he₂]
      rfl
    · exact goodSegs_cons (hg (.tg u) (by simp)) hg₂
    · exact hc₂

/-- The per-chunk transform of pass 3 on a clean text chunk: the output
flattens a well-formed segment list with the chunk as content. -/
theorem numTransform_segs (t : List Char) (hcl : CleanTxt t) :
    ∃ out : List Seg, numTransform t = flatS out ∧ GoodSegs out ∧ contentS out = t := by
  unfold numTransform
  by_cases hd : t.takeWhile isDigitChar = []
  · have hs1 : step1 t = t := by
      unfold step1
      simp [hd]
    rw [hs1]
    have hfl : t = flatS [Seg.txt t] := by simp [flatS]
    obtain ⟨out, he, hg, hc⟩ := numF_flat [Seg.txt t] t.length false
      (fun sg hsg => by
        simp only [List.mem_singleton] at hsg
        subst hsg
        exact hcl)
      (by simp [noAdjTxt, isTxt])
      (fun u hu => by simp at hu)
      (by rw [← hfl])
    refine ⟨out, ?_, hg, ?_⟩
    · rw [← hfl] at he
      exact he
    · rw [hc]
      simp [contentS]
  · have hs1 : step1 t = lineNumOpen ++ t.takeWhile isDigitChar ++ closeSpan ++
        t.dropWhile isDigitChar := by
      unfold step1
      simp [hd]
    have htcl : CleanTxt (t.takeWhile isDigitChar) :=
      ⟨fun hh => hcl.1 ((List.takeWhile_sublist _).subset hh),
       fun hh => hcl.2 ((List.takeWhile_sublist _).subset hh)⟩
    have hdcl : CleanTxt (t.dropWhile isDigitChar) :=
      ⟨fun hh => hcl.1 ((List.dropWhile_sublist _).subset hh),
       fun hh => hcl.2 ((List.dropWhile_sublist _).subset hh)⟩
    have hfl : step1 t = flatS [Seg.tg lineNumOpen, Seg.txt (t.takeWhile isDigitChar),
        Seg.tg closeSpan, Seg.txt (t.dropWhile isDigitChar)] := by
      rw [hs1]
      simp [flatS, List.append_assoc]
    obtain ⟨out, he, hg, hc⟩ := numF_flat [Seg.tg lineNumOpen,
        Seg.txt (t.takeWhile isDigitChar), Seg.tg closeSpan,
        Seg.txt (t.dropWhile isDigitChar)] (step1 t).length false
      (fun sg hsg => by
        simp only [List.mem_cons, List.not_mem_nil, or_false] at hsg
        rcases hsg with rfl | rfl | rfl | rfl
        · exact goodTag_lineNumOpen
        · exact htcl
        · exact goodTag_closeSpan
        · exact hdcl)
      (by simp [noAdjTxt, isTxt])
      (fun u hu c hcm => by
        simp only [List.mem_cons, List.not_mem_nil, or_false, Seg.tg.injEq,
          reduceCtorEq, false_or] at hu
        rcases hu with rfl | rfl
        · exact (by decide : ∀ d ∈ lineNumOpen, isDigitChar d = false) c hcm
        · exact (by decide : ∀ d ∈ closeSpan, isDigitChar d = false) c hcm)
      (by rw [← hfl])
    refine ⟨out, ?_, hg, ?_⟩
    · rw [← hfl] at he
      exact he
    · rw [hc]
      simp [contentS, List.takeWhile_append_dropWhile]

/-- The splitter recognises a well-formed tag: it closes the chunk of text
seen so far and emits the tag whole. -/
theorem parseGo_tag (tg rest acc : List Char) (h : GoodTag tg) :
    parseGo (tg ++ rest) none acc =
      .text acc.reverse :: .tag tg :: parseGo rest none [] := by
  obtain ⟨mid, rfl, hne, hgt, _⟩ := h
  show parseGo ('<' :: ((mid ++ ['>']) ++ rest)) none acc = _
  rw [parseGo, if_pos rfl]
  rw [show (mid ++ ['>']) ++ rest = mid ++ ('>' :: rest) by simp]
  rw [parseGo_pending mid hgt ('>' :: rest) ['<'] acc]
  rw [parseGo, if_pos rfl]
  have hlen : 2 ≤ (mid.reverse ++ ['<']).length := by
    have : 1 ≤ mid.length := List.length_pos.2 hne
    simp
    omega
  rw [if_pos hlen]
  simp

/-- Splitting the flattening of a well-formed segment list and applying
the number transform to the text chunks: the result flattens a
well-formed segment list and the content is preserved exactly.  The
accumulator `acc` is the clean text read before the current position. -/
theorem hi_flat : ∀ (segs : List Seg) (acc : List Char),
    GoodSegs segs → CleanTxt acc →
    ∃ out : List Seg,
      joinChunks (parseGo (flatS segs) none acc.reverse) = flatS out ∧
      GoodSegs out ∧ contentS out = acc ++ contentS segs
  | [], acc, _, hacc => by
    obtain ⟨out, he, hg, hc⟩ := numTransform_segs acc hacc
    refine ⟨out, ?_, hg, ?_⟩
    · show joinChunks [Chunk.text acc.reverse.reverse] = _
      rw [List.reverse_reverse]
      show numTransform acc ++ [] = _
      rw [he, List.append_nil]
    · rw [hc]
      simp [contentS]
  | .txt t :: r, acc, hg, hacc => by
    have ht : CleanTxt t := hg (.txt t) (by simp)
    have hgr : GoodSegs r := fun sg hs => hg sg (by simp [hs])
    obtain ⟨out, he, hgo, hc⟩ := hi_flat r (acc ++ t) hgr (cleanTxt_append hacc ht)
    refine ⟨out, ?_, hgo, ?_⟩
    · show joinChunks (parseGo (t ++ flatS r) none acc.reverse) = _
      rw [parseGo_clean_text t ht.1 (flatS r) acc.reverse]
      rw [show t.reverse ++ acc.reverse = (acc ++ t).reverse by simp]
      exact he
    · rw [hc]
      simp [contentS]
  | .tg u :: r, acc, hg, hacc => by
    have hgu : GoodTag u := hg (.tg u) (by simp)
    have hgr : GoodSegs r := fun sg hs => hg sg (by simp [hs])
    obtain ⟨outa, hea, hga, hca⟩ := numTransform_segs acc hacc
    obtain ⟨outr, her, hgor, hcr⟩ := hi_flat r [] hgr ⟨by simp, by simp⟩
    refine ⟨outa ++ .tg u :: outr, ?_, ?_, ?_⟩
    · show joinChunks (parseGo (u ++ flatS r) none acc.reverse) = _
      rw [parseGo_tag u (flatS r) acc.reverse hgu, List.reverse_reverse]
      show numTransform acc ++ (u ++ joinChunks (parseGo (flatS r) none [])) = _
      simp only [List.reverse_nil] at her
      rw [hea, her, flatS_append]
      rfl
    · intro sg hs
      rcases List.mem_append.1 hs with hs | hs
      · exact hga sg hs
      · rcases List.mem_cons.1 hs with rfl | hs
        · exact hgu
        · exact hgor sg hs
    · rw [contentS_append, hca]
      show acc ++ contentS outr = _
      rw [hcr]
      rfl

/-- Full pipeline content preservation: on a line containing no markup
characters, stripping all tags from the decorated line recovers the line
up to ASCII letter case. -/
theorem processLogLineL_content (l : List Char) (hcl : CleanTxt l) :
    lowerL (stripTags (processLogLineL l)) = lowerL l := by
  obtain ⟨s1, he1, hg1, ha1, hp1, hc1⟩ := wrapPyF_segs l.length l le_rfl hcl
  have hw : wrapPy l = flatS s1 := he1
  obtain ⟨s2, he2, hg2, hl2⟩ := levelF_flat s1 (flatS s1).length false hg1 ha1 hp1 le_rfl
  obtain ⟨s3, he3, hg3, hc3⟩ := hi_flat s2 [] hg2 ⟨by simp, by simp⟩
  simp only [List.reverse_nil] at he3
  unfold processLogLineL levelScan highlightTags parseChunks
  rw [hw, he2, he3, strip_flat s3 hg3, hc3, List.nil_append, hl2, hc1]

set_option maxRecDepth 100000 in
/-- C7 (amended): decoration preserves the logical content of a raw log
line up to ASCII letter case: for every input line containing no `<` or
`>` character, stripping the added markup (the level-badge,
logfile-bubble, line-number and number spans) from the decorated output
recovers the original trimmed text with matched level keywords
upper-cased — i.e. the two sides agree after ASCII lower-casing.  (The
exact character-for-character claim fails: the level pass emits the
matched keyword upper-cased, see the counterexample.) -/
theorem claim_C7_amended (raw : String) (h1 : '<' ∉ raw.data) (h2 : '>' ∉ raw.data) :
    lowerL (stripMarkup (processLogLine (jsTrim raw))).data =
      lowerL (jsTrim raw).data := by
  have hsub : ∀ c ∈ jsTrimList raw.data, c ∈ raw.data := by
    intro c hc
    unfold jsTrimList at hc
    rw [List.mem_reverse] at hc
    have hc2 := (List.dropWhile_sublist _).subset hc
    rw [List.mem_reverse] at hc2
    exact (List.dropWhile_sublist _).subset hc2
  have hcl : CleanTxt (jsTrim raw).data :=
    ⟨fun hh => h1 (hsub _ hh), fun hh => h2 (hsub _ hh)⟩
  exact processLogLineL_content (jsTrim raw).data hcl

set_option maxRecDepth 1000000 in
/-- Witness for the amended C7 at a concrete line: `"  Error 42 "` trims
to `"Error 42"`, decorates to a level badge with upper-cased keyword plus
a number span, and stripping the markup gives `"ERROR 42"`, equal to the
trimmed line up to letter case. -/
theorem claim_C7_amended_witness :
    '<' ∉ "  Error 42 ".data ∧ '>' ∉ "  Error 42 ".data ∧
    stripMarkup (processLogLine (jsTrim "  Error 42 ")) = "ERROR 42" ∧
    lowerL (stripMarkup (processLogLine (jsTrim "  Error 42 "))).data =
      lowerL (jsTrim "  Error 42 ").data :=
  ⟨by decide, by decide, by decide,
    claim_C7_amended "  Error 42 " (by decide) (by decide)⟩

end Bjorn